import Mathlib

/-!
Shallow embedding of the associative CoW stack from `src/Fancy_Stack/stack.h`
(namespace `cxx`, class template `stack<K, V>` with shared representation
`stack_data<K, V>`).

Modelling choices:

* `std::map<K, A>` is modelled as an association list sorted strictly by key
  (`mapFind?`, `mapSet`, `mapEnsure`, `mapErase`).  `mapEnsure` is
  `operator[]`: it default-inserts a bucket when the key is absent and leaves
  the map unchanged otherwise.
* `std::list` nodes are stable in C++ (iterators survive unrelated
  mutations), so list iterators are modelled by node identifiers: every value
  node pushed into a bucket receives a fresh `Nat` id (`next_id` counter).
  The descriptor pair `(map-iterator, value-iterator)` stored in `elements`
  becomes `(key, id)`; the iterators into `elements` stored in
  `key_to_list_map` are likewise identified by the entry id of the node they
  point to (entries of `elements` are in 1-1 correspondence with value
  nodes).
* `std::invalid_argument` exceptions are modelled as a `CppException` value
  recording the dynamic type name and the message string.
* Failure is an explicit `Option CppException` component of each fallible
  operation's result; since the throwing check in `pop(K const&)` and the
  `front(K const&)` overloads runs `operator[]` on the live map, those
  operations also return the (possibly mutated) post-state even on failure.
-/

namespace cxx

/-- Model of a thrown C++ exception: dynamic type plus `what()` message. -/
structure CppException where
  typeName : String
  message : String
deriving DecidableEq

/-- The exception thrown by `pop()` / `front()` on an empty stack
(stack.h:403, 495, 510). -/
def emptyErr : CppException :=
  ⟨"std::invalid_argument", "The stack is empty."⟩

/-- The exception thrown by `pop(k)` / `front(k)` when no element has the
key (stack.h:435, 524, 537). -/
def noSuchKeyErr : CppException :=
  ⟨"std::invalid_argument", "There\x27s no element with the given key in the stack."⟩

variable {K V A : Type}

/-- `std::map` lookup (`find` / `contains`). -/
def mapFind? [DecidableEq K] : List (K × A) → K → Option A
  | [], _ => none
  | (k2, a) :: t, k => if k = k2 then some a else mapFind? t k

/-- Insert-or-replace at the sorted position (the state change performed by
`operator[]` on an absent key followed by writes through the returned
reference). -/
def mapSet [LinearOrder K] : List (K × A) → K → A → List (K × A)
  | [], k, a => [(k, a)]
  | (k2, a2) :: t, k, a =>
    if k < k2 then (k, a) :: (k2, a2) :: t
    else if k = k2 then (k, a) :: t
    else (k2, a2) :: mapSet t k a

/-- `operator[]`: default-insert the key when absent, otherwise no change. -/
def mapEnsure [LinearOrder K] (m : List (K × A)) (k : K) (dflt : A) : List (K × A) :=
  match mapFind? m k with
  | some _ => m
  | none => mapSet m k dflt

/-- `std::map::erase(key)`. -/
def mapErase [DecidableEq K] : List (K × A) → K → List (K × A)
  | [], _ => []
  | (k2, a2) :: t, k => if k = k2 then t else (k2, a2) :: mapErase t k

/-- Dereference a stored `list<V>::iterator`: find the node with the given
id inside a bucket. -/
def lookupId : List (Nat × V) → Nat → Option V
  | [], _ => none
  | (i, v) :: t, n => if n = i then some v else lookupId t n

/-- `list<V>::erase(iterator)`: remove the node with the given id. -/
def eraseId : List (Nat × V) → Nat → List (Nat × V)
  | [], _ => []
  | (i, v) :: t, n => if n = i then t else (i, v) :: eraseId t n

/-- `element_list::erase(iterator)`: remove the descriptor node with the
given entry id from `elements`. -/
def eraseEntryById [DecidableEq K] : List (K × Nat) → Nat → List (K × Nat)
  | [], _ => []
  | (k, i) :: t, n => if n = i then t else (k, i) :: eraseEntryById t n

/-- The representation object `stack_data<K, V>` (stack.h:25-46):
`elements_by_key` is the map from keys to buckets of value nodes (each node
modelled as id-value pair), `elements` the push-ordered list of descriptors
`(key, value-node id)`, `key_to_list_map` the map from keys to the
push-ordered ids of the `elements` nodes holding that key.  `next_id` is the
model's fresh-node counter. -/
structure stack_data (K V : Type) where
  elements_by_key : List (K × List (Nat × V))
  elements : List (K × Nat)
  key_to_list_map : List (K × List Nat)
  next_id : Nat
deriving DecidableEq

/-- `stack_data` default constructor (stack.h:48-51). -/
def emptyData : stack_data K V := ⟨[], [], [], 0⟩

namespace stack_data

/-- `stack<K,V>::push` success path (stack.h:355-397): ensure a bucket,
append the value node, append the descriptor, ensure the index bucket,
append the descriptor's id. -/
def push [LinearOrder K] (d : stack_data K V) (key : K) (value : V) :
    stack_data K V :=
  let ebk0 := mapEnsure d.elements_by_key key []
  let b0 := (mapFind? ebk0 key).getD []
  let vid := d.next_id
  let ebk1 := mapSet ebk0 key (b0 ++ [(vid, value)])
  let els1 := d.elements ++ [(key, vid)]
  let ktl0 := mapEnsure d.key_to_list_map key []
  let l0 := (mapFind? ktl0 key).getD []
  let ktl1 := mapSet ktl0 key (l0 ++ [vid])
  ⟨ebk1, els1, ktl1, vid + 1⟩

/-- `stack<K,V>::pop()` (stack.h:399-429).  Throws `emptyErr` when
`elements` is empty; otherwise removes the top descriptor, its id from
`key_to_list_map`, and its value node from its bucket, erasing buckets that
become empty. -/
def pop [LinearOrder K] (d : stack_data K V) :
    Option CppException × stack_data K V :=
  if d.elements.isEmpty then (some emptyErr, d)
  else
    match d.elements.getLast? with
    | none => (some emptyErr, d)
    | some (key, vid) =>
      let ktl0 := mapEnsure d.key_to_list_map key []
      let l0 := (mapFind? ktl0 key).getD []
      let l1 := l0.dropLast
      let ktl1 := if l1.isEmpty then mapErase ktl0 key else mapSet ktl0 key l1
      let ebk0 := mapEnsure d.elements_by_key key []
      let b0 := (mapFind? ebk0 key).getD []
      let b1 := eraseId b0 vid
      let ebk1 := if b1.isEmpty then mapErase ebk0 key else mapSet ebk0 key b1
      (none, ⟨ebk1, d.elements.dropLast, ktl1, d.next_id⟩)

/-- `stack<K,V>::pop(K const&)` (stack.h:431-462).  The throwing check
`elements_by_key[key].empty()` runs `operator[]`, so an absent key is
default-inserted as an empty bucket before the test; on failure that bucket
stays behind in the returned state. -/
def popKey [LinearOrder K] (d : stack_data K V) (key : K) :
    Option CppException × stack_data K V :=
  let ebk0 := mapEnsure d.elements_by_key key []
  let d0 : stack_data K V := ⟨ebk0, d.elements, d.key_to_list_map, d.next_id⟩
  if ((mapFind? ebk0 key).getD []).isEmpty then (some noSuchKeyErr, d0)
  else
    let ktl0 := mapEnsure d0.key_to_list_map key []
    let l0 := (mapFind? ktl0 key).getD []
    match l0.getLast? with
    | none => (none, d0)
    | some popId =>
      let els1 := eraseEntryById d0.elements popId
      let l1 := l0.dropLast
      let ktl1 := if l1.isEmpty then mapErase ktl0 key else mapSet ktl0 key l1
      let b0 := (mapFind? ebk0 key).getD []
      let b1 := b0.dropLast
      let ebk1 := if b1.isEmpty then mapErase ebk0 key else mapSet ebk0 key b1
      (none, ⟨ebk1, els1, ktl1, d.next_id⟩)

/-- `stack<K,V>::clear()` body (stack.h:464-473). -/
def clearData (d : stack_data K V) : stack_data K V :=
  ⟨[], [], [], d.next_id⟩

/-- `stack<K,V>::size()` (stack.h:475-479). -/
def size (d : stack_data K V) : Nat := d.elements.length

/-- `stack<K,V>::count(K const&)` (stack.h:481-488): 0 when the map does not
contain the key, otherwise the bucket length. -/
def count [DecidableEq K] (d : stack_data K V) (key : K) : Nat :=
  match mapFind? d.elements_by_key key with
  | none => 0
  | some b => b.length

/-- The observable value of `front()`: top descriptor's key plus the value
obtained by dereferencing its stored value iterator (stack.h:498-500). -/
def frontVal [DecidableEq K] (d : stack_data K V) : Option (K × V) :=
  match d.elements.getLast? with
  | none => none
  | some (key, vid) =>
    match lookupId ((mapFind? d.elements_by_key key).getD []) vid with
    | none => none
    | some v => some (key, v)

/-- `stack<K,V>::front() const` (stack.h:505-517). -/
def front [DecidableEq K] (d : stack_data K V) :
    Option CppException × Option (K × V) :=
  if d.elements.length = 0 then (some emptyErr, none)
  else (none, frontVal d)

/-- `stack<K,V>::front(K const&) const` (stack.h:532-542).  The check
`elements_by_key[key].empty()` runs `operator[]` even in the const overload
(the `shared_ptr` member is const, its pointee is not), so an absent key is
default-inserted; the possibly mutated state is returned alongside the
result. -/
def frontKey [LinearOrder K] (d : stack_data K V) (key : K) :
    Option CppException × Option V × stack_data K V :=
  let ebk0 := mapEnsure d.elements_by_key key []
  let b0 := (mapFind? ebk0 key).getD []
  let d0 : stack_data K V := ⟨ebk0, d.elements, d.key_to_list_map, d.next_id⟩
  if b0.isEmpty then (some noSuchKeyErr, none, d0)
  else (none, b0.getLast?.map Prod.snd, d0)

/-- The key sequence yielded by the iterator range `cbegin()`..`cend()`
(stack.h:191-201): the keys of `elements_by_key` in map order. -/
def keys (d : stack_data K V) : List K := d.elements_by_key.map Prod.fst

end stack_data

/-- Resolve a descriptor `(key, id)` of `elements` against the buckets of
`d` — the dereference `*(iter->second)` performed by the `stack_data` copy
constructor (stack.h:64). -/
def valueOf [DecidableEq K] (d : stack_data K V) (e : K × Nat) : Option V :=
  lookupId ((mapFind? d.elements_by_key e.1).getD []) e.2

/-- The `stack_data` copy constructor (stack.h:53-73): walk `elements` in
push order and replay each resolvable entry into a fresh representation
(the loop body has exactly the effect of `push`'s success path on the three
containers).  A dangling stored iterator would be undefined behaviour in the
source; it is modelled by skipping the entry, and is unreachable from
well-formed representations. -/
def cloneData [LinearOrder K] (d : stack_data K V) : stack_data K V :=
  d.elements.foldl
    (fun acc e =>
      match valueOf d e with
      | some v => acc.push e.1 v
      | none => acc)
    emptyData

/-- The handle class `stack<K, V>` (stack.h:78-202): a shared reference to a
`stack_data` (modelled as an index into the world's heap of representation
objects) plus the shareability flag with its default member initializer
`true` (stack.h:83). -/
structure stack where
  data_wrapper : Nat
  bIsShareable : Bool
deriving DecidableEq

/-- A heap of `stack_data` objects plus the currently live `stack` handles.
Representation objects are never removed from `reps`; sharing is expressed
by two handles holding the same index, and `shared_ptr::use_count()` is the
number of handles referencing the index (plus any guard's own copy, added at
the call site). -/
structure World (K V : Type) where
  reps : List (stack_data K V)
  handles : List stack
deriving DecidableEq

/-- Number of `shared_ptr` copies held by live handles for the given
representation index. -/
def useCount (w : World K V) (rIdx : Nat) : Nat :=
  w.handles.countP (fun h => h.data_wrapper == rIdx)

/-- The representation currently referenced by heap index `n`. -/
def repAt (w : World K V) (n : Nat) : stack_data K V :=
  w.reps.getD n emptyData

/-- The representation currently referenced by handle `i`. -/
def repOfHandle (w : World K V) (i : Nat) : stack_data K V :=
  match w.handles[i]? with
  | none => emptyData
  | some h => repAt w h.data_wrapper

/-- The committed effect of a mutator running under `modify_guard`
(stack.h:312-353): the guard itself holds one extra `shared_ptr` copy, so
with `use_count() > 2` and a shareable handle the representation is deep
cloned first and the handle retargeted; in every case the handle's
`bIsShareable` is then set to the guard's `bIsStillShareable` argument
(stack.h:335) and the mutation body `f` runs on the handle's (possibly new)
representation. -/
def runModifyGuard [LinearOrder K] (w : World K V) (i : Nat)
    (bIsStillShareable : Bool) (f : stack_data K V → stack_data K V) :
    World K V :=
  match w.handles[i]? with
  | none => w
  | some h =>
    if 2 < useCount w h.data_wrapper + 1 ∧ h.bIsShareable then
      ⟨w.reps ++ [f (cloneData (repAt w h.data_wrapper))],
       w.handles.set i ⟨w.reps.length, bIsStillShareable⟩⟩
    else
      ⟨w.reps.set h.data_wrapper (f (repAt w h.data_wrapper)),
       w.handles.set i ⟨h.data_wrapper, bIsStillShareable⟩⟩

/-- `stack<K,V>::push` at handle level (stack.h:355-397): guard with
`bIsStillShareable = true`, then the representation-level push. -/
def wPush [LinearOrder K] (w : World K V) (i : Nat) (key : K) (value : V) :
    World K V :=
  runModifyGuard w i true (fun d => d.push key value)

/-- `stack<K,V>::pop()` at handle level (stack.h:399-429): the empty check
precedes the guard; on success the guard (with `bIsStillShareable = true`)
runs and the pop body executes on the handle's representation. -/
def wPop [LinearOrder K] (w : World K V) (i : Nat) :
    Option CppException × World K V :=
  if (repOfHandle w i).elements.isEmpty then (some emptyErr, w)
  else (none, runModifyGuard w i true (fun d => d.pop.2))

/-- Non-const `stack<K,V>::front()` at handle level (stack.h:490-503): empty
check before the guard; on success the guard runs with
`bIsStillShareable = false` (poisoning) and the top pair is read from the
handle's (possibly freshly cloned) representation. -/
def wFront [LinearOrder K] (w : World K V) (i : Nat) :
    Option CppException × Option (K × V) × World K V :=
  if (repOfHandle w i).elements.length = 0 then (some emptyErr, none, w)
  else
    let w1 := runModifyGuard w i false (fun d => d)
    (none, stack_data.frontVal (repOfHandle w1 i), w1)

/-- Non-const `stack<K,V>::front(K const&)` at handle level
(stack.h:519-530): the check `elements_by_key[key].empty()` runs
`operator[]` on the still-shared representation before the guard; on success
the guard runs with `bIsStillShareable = false` and the bucket's last value
is read back. -/
def wFrontKey [LinearOrder K] (w : World K V) (i : Nat) (key : K) :
    Option CppException × Option V × World K V :=
  match w.handles[i]? with
  | none => (none, none, w)
  | some h =>
    let d := repAt w h.data_wrapper
    let ebk0 := mapEnsure d.elements_by_key key []
    let d1 : stack_data K V := ⟨ebk0, d.elements, d.key_to_list_map, d.next_id⟩
    let w1 : World K V := ⟨w.reps.set h.data_wrapper d1, w.handles⟩
    if ((mapFind? ebk0 key).getD []).isEmpty then (some noSuchKeyErr, none, w1)
    else
      let w2 := runModifyGuard w1 i false (fun d2 => d2)
      (none,
       ((mapFind? (repOfHandle w2 i).elements_by_key key).getD
          []).getLast?.map Prod.snd,
       w2)

/-- Const `stack<K,V>::front(K const&)` at handle level: the
representation-level `frontKey` applied in place to the handle's shared
representation (no guard, no flag change). -/
def wFrontKeyConst [LinearOrder K] (w : World K V) (i : Nat) (key : K) :
    Option CppException × Option V × World K V :=
  match w.handles[i]? with
  | none => (none, none, w)
  | some h =>
    let r := stack_data.frontKey (repAt w h.data_wrapper) key
    (r.1, r.2.1, ⟨w.reps.set h.data_wrapper r.2.2, w.handles⟩)

/-- The `stack` copy constructor (stack.h:209-222): share the representation
when the source is shareable, deep-clone otherwise; the new handle's
`bIsShareable` is its default member initializer `true` in both cases.  The
new handle is appended to the world's handle list. -/
def copyFrom [LinearOrder K] (w : World K V) (i : Nat) : World K V :=
  match w.handles[i]? with
  | none => w
  | some h =>
    if h.bIsShareable then ⟨w.reps, w.handles ++ [⟨h.data_wrapper, true⟩]⟩
    else
      ⟨w.reps ++ [cloneData (repAt w h.data_wrapper)],
       w.handles ++ [⟨w.reps.length, true⟩]⟩

/-- The `stack` move constructor (stack.h:224-227): only `data_wrapper` is
moved in the initializer list; `bIsShareable` is left to its default member
initializer `true`, whatever the source's flag was. -/
def moveConstruct (h : stack) : stack := ⟨h.data_wrapper, true⟩

/-- `stack<K,V>::operator=(stack other)` (stack.h:544-559) applied to target
handle `ti` with argument handle `ai`.  The by-value parameter `other` is a
fresh copy, so its `bIsShareable` is always `true` and the branch on
`other.bIsShareable` always shares `other`'s representation: the target ends
up referencing the argument's representation when the argument is shareable
and a fresh deep clone otherwise.  The assignment body never writes
`this->bIsShareable`, so the target's flag is unchanged. -/
def assign [LinearOrder K] (w : World K V) (ti ai : Nat) : World K V :=
  match w.handles[ti]?, w.handles[ai]? with
  | some t, some a =>
    if a.bIsShareable then
      ⟨w.reps, w.handles.set ti ⟨a.data_wrapper, t.bIsShareable⟩⟩
    else
      ⟨w.reps ++ [cloneData (repAt w a.data_wrapper)],
       w.handles.set ti ⟨w.reps.length, t.bIsShareable⟩⟩
  | _, _ => w

/-- The world containing one default-constructed `stack` handle
(stack.h:204-207). -/
def oneStackWorld : World K V := ⟨[emptyData], [⟨0, true⟩]⟩

/-- Default-construct one more independent `stack` handle with its own fresh
representation (stack.h:204-207). -/
def addFreshStack (w : World K V) : World K V :=
  ⟨w.reps ++ [emptyData], w.handles ++ [⟨w.reps.length, true⟩]⟩

/-- The ids (in push order) of the `elements` descriptors carrying a given
key. -/
def idsWithKey [DecidableEq K] (els : List (K × Nat)) (k : K) : List Nat :=
  (els.filter (fun e => decide (e.1 = k))).map Prod.snd

/-- Well-formedness of a reachable representation: both maps are strictly
sorted by key; every bucket of `elements_by_key` holds exactly the value
nodes of the entries with its key, in push order, and is nonempty; every
bucket of `key_to_list_map` holds exactly the ids of the entries with its
key, in push order, and is nonempty; every entry's key owns a bucket in both
maps; node ids are pairwise distinct and below the freshness counter. -/
def Inv [LinearOrder K] (d : stack_data K V) : Prop :=
  (d.elements_by_key.map Prod.fst).Pairwise (· < ·) ∧
  (d.key_to_list_map.map Prod.fst).Pairwise (· < ·) ∧
  (∀ p ∈ d.elements_by_key,
    p.2.map Prod.fst = idsWithKey d.elements p.1 ∧ p.2 ≠ []) ∧
  (∀ p ∈ d.key_to_list_map,
    p.2 = idsWithKey d.elements p.1 ∧ p.2 ≠ []) ∧
  (∀ e ∈ d.elements, ∃ p ∈ d.elements_by_key, p.1 = e.1) ∧
  (∀ e ∈ d.elements, ∃ p ∈ d.key_to_list_map, p.1 = e.1) ∧
  (d.elements.map Prod.snd).Nodup ∧
  (∀ e ∈ d.elements, e.2 < d.next_id)

instance [LinearOrder K] [DecidableEq V] (d : stack_data K V) :
    Decidable (Inv d) := by
  unfold Inv
  exact inferInstance

/-- The five data-model invariants of spec §3, stated over the embedded
representation: (1) the entry count equals the sum of the bucket sizes;
(2) each `ByKey` bucket has a `ByKeyIndex` bucket of equal length;
(3) each `ByKeyIndex` bucket lists exactly the node ids of its `ByKey`
bucket, in order, which is the subsequence of `Order` with that key;
(4) every stored reference is live: each descriptor's value iterator
dereferences, and every position stored in `ByKeyIndex` is a live `Order`
node; (5) no empty bucket exists in either map. -/
def SpecInv [LinearOrder K] (d : stack_data K V) : Prop :=
  (d.elements.length = (d.elements_by_key.map (fun p => p.2.length)).sum) ∧
  (∀ p ∈ d.elements_by_key,
    ∃ l, mapFind? d.key_to_list_map p.1 = some l ∧ l.length = p.2.length) ∧
  (∀ p ∈ d.key_to_list_map,
    ∃ b, mapFind? d.elements_by_key p.1 = some b ∧
      p.2 = b.map Prod.fst ∧ p.2 = idsWithKey d.elements p.1) ∧
  ((∀ e ∈ d.elements, (valueOf d e).isSome) ∧
   (∀ p ∈ d.key_to_list_map, ∀ n ∈ p.2, n ∈ d.elements.map Prod.snd)) ∧
  ((∀ p ∈ d.elements_by_key, p.2 ≠ []) ∧
   (∀ p ∈ d.key_to_list_map, p.2 ≠ []))

/-- One mutating operation of the public interface. -/
inductive MutOp (K V : Type) where
  | pushOp (key : K) (value : V)
  | popOp
  | popKeyOp (key : K)
  | clearOp

/-- Run one mutating operation on a representation, returning the raised
exception (if any) and the post-state. -/
def runOp [LinearOrder K] (d : stack_data K V) :
    MutOp K V → Option CppException × stack_data K V
  | .pushOp key value => (none, d.push key value)
  | .popOp => d.pop
  | .popKeyOp key => d.popKey key
  | .clearOp => (none, d.clearData)

/-- Run a sequence of mutating operations; `none` when any of them raises. -/
def runOps [LinearOrder K] :
    List (MutOp K V) → stack_data K V → Option (stack_data K V)
  | [], d => some d
  | op :: t, d =>
    match runOp d op with
    | (none, d1) => runOps t d1
    | (some _, _) => none

/-- The round-trip property of spec §8 for a starting state `d`:
`push(key, value)` immediately followed by `pop()` succeeds and restores
`size()` and `count(key)`, and when `d` was non-empty, `front()` afterwards
returns the same pair as before. -/
def pushPopRoundTrip [LinearOrder K] (d : stack_data K V) (key : K)
    (value : V) : Prop :=
  ((d.push key value).pop.1 = none) ∧
  ((d.push key value).pop.2.size = d.size) ∧
  ((d.push key value).pop.2.count key = d.count key) ∧
  (d.elements ≠ [] → (d.push key value).pop.2.front = d.front)

/-- The shareability flag of handle `i` (default `true` for an index out of
range, matching the member initializer). -/
def flagOf (w : World K V) (i : Nat) : Bool :=
  match w.handles[i]? with
  | none => true
  | some h => h.bIsShareable

/-- The heap index of handle `i`'s representation. -/
def idxOf (w : World K V) (i : Nat) : Nat :=
  match w.handles[i]? with
  | none => 0
  | some h => h.data_wrapper

/-- The failure-condition contract of spec §7 for a representation `d`, a
key, and handle `i` of world `w`: `pop()` and both `front()` overloads
raise the empty failure exactly on an empty container and succeed
otherwise; `pop(k)` and both `front(k)` overloads raise the no-such-key
failure exactly when `count k = 0` and succeed otherwise (the non-const
overloads are stated through their handle-level models). -/
def failureConditions [LinearOrder K] (d : stack_data K V) (key : K)
    (w : World K V) (i : Nat) : Prop :=
  (d.pop.1 = some emptyErr ↔ d.size = 0) ∧
  (d.pop.1 = none ↔ d.size ≠ 0) ∧
  (d.front.1 = some emptyErr ↔ d.size = 0) ∧
  (d.front.1 = none ↔ d.size ≠ 0) ∧
  ((d.popKey key).1 = some noSuchKeyErr ↔ d.count key = 0) ∧
  ((d.popKey key).1 = none ↔ d.count key ≠ 0) ∧
  ((d.frontKey key).1 = some noSuchKeyErr ↔ d.count key = 0) ∧
  ((d.frontKey key).1 = none ↔ d.count key ≠ 0) ∧
  ((wFront w i).1 = some emptyErr ↔ (repOfHandle w i).size = 0) ∧
  ((wFront w i).1 = none ↔ (repOfHandle w i).size ≠ 0) ∧
  ((wFrontKey w i key).1 = some noSuchKeyErr ↔
    (repOfHandle w i).count key = 0) ∧
  ((wFrontKey w i key).1 = none ↔ (repOfHandle w i).count key ≠ 0)

/-! ### Lemmas about the sorted-map model -/

theorem mapFind?_eq_none_iff [DecidableEq K] {m : List (K × A)} {k : K} :
    mapFind? m k = none ↔ ∀ p ∈ m, p.1 ≠ k := by
  induction m with
  | nil => simp [mapFind?]
  | cons p t ih =>
    obtain ⟨k2, a⟩ := p
    by_cases h : k = k2
    · subst h; simp [mapFind?]
    · simp only [mapFind?, if_neg h, ih, List.mem_cons]
      constructor
      · intro hall p hp
        rcases hp with hp | hp
        · subst hp; exact fun he => h he.symm
        · exact hall p hp
      · intro hall p hp; exact hall p (Or.inr hp)

theorem mapFind?_mem [DecidableEq K] {m : List (K × A)} {k : K} {a : A}
    (h : mapFind? m k = some a) : (k, a) ∈ m := by
  induction m with
  | nil => simp [mapFind?] at h
  | cons p t ih =>
    obtain ⟨k2, a2⟩ := p
    by_cases he : k = k2
    · subst he
      simp only [mapFind?, if_true, eq_self_iff_true, Option.some.injEq] at h
      subst h; exact List.mem_cons_self _ _
    · simp only [mapFind?, if_neg he] at h
      exact List.mem_cons_of_mem _ (ih h)

theorem nodup_keys_of_sorted [LinearOrder K] {m : List (K × A)}
    (hs : (m.map Prod.fst).Pairwise (· < ·)) : (m.map Prod.fst).Nodup :=
  hs.imp ne_of_lt

theorem find_of_mem [LinearOrder K] {m : List (K × A)}
    (hs : (m.map Prod.fst).Pairwise (· < ·)) {p : K × A} (hp : p ∈ m) :
    mapFind? m p.1 = some p.2 := by
  induction m with
  | nil => simp at hp
  | cons q t ih =>
    obtain ⟨k2, a2⟩ := q
    simp only [List.map_cons, List.pairwise_cons] at hs
    rcases List.mem_cons.mp hp with hp | hp
    · subst hp; simp [mapFind?]
    · have hne : p.1 ≠ k2 := by
        intro he
        have : k2 < p.1 := hs.1 p.1 (List.mem_map_of_mem Prod.fst hp)
        exact absurd he.symm (ne_of_lt this)
      simp only [mapFind?, if_neg hne]
      exact ih hs.2 hp

theorem mapFind?_mapSet_self [LinearOrder K] (m : List (K × A)) (k : K)
    (a : A) : mapFind? (mapSet m k a) k = some a := by
  induction m with
  | nil => simp [mapSet, mapFind?]
  | cons p t ih =>
    obtain ⟨k2, a2⟩ := p
    by_cases hlt : k < k2
    · simp [mapSet, hlt, mapFind?]
    · by_cases he : k = k2
      · simp [mapSet, hlt, he, mapFind?]
      · have : ¬ k = k2 := he
        simp [mapSet, hlt, he, mapFind?, ih]

theorem mapFind?_mapSet_ne [LinearOrder K] (m : List (K × A)) {k k2 : K}
    (a : A) (h : k2 ≠ k) : mapFind? (mapSet m k a) k2 = mapFind? m k2 := by
  induction m with
  | nil => simp [mapSet, mapFind?, h]
  | cons p t ih =>
    obtain ⟨k3, a3⟩ := p
    by_cases hlt : k < k3
    · simp [mapSet, hlt, mapFind?, h]
    · by_cases he : k = k3
      · subst he; simp [mapSet, hlt, mapFind?, h]
      · by_cases he2 : k2 = k3
        · subst he2; simp [mapSet, hlt, he, mapFind?]
        · simp [mapSet, hlt, he, mapFind?, he2, ih]

theorem mapFind?_mapErase_ne [DecidableEq K] (m : List (K × A)) {k k2 : K}
    (h : k2 ≠ k) : mapFind? (mapErase m k) k2 = mapFind? m k2 := by
  induction m with
  | nil => simp [mapErase]
  | cons p t ih =>
    obtain ⟨k3, a3⟩ := p
    by_cases he : k = k3
    · subst he
      simp [mapErase, mapFind?, h, ih]
    · by_cases he2 : k2 = k3
      · subst he2; simp [mapErase, he, mapFind?]
      · simp [mapErase, he, mapFind?, he2, ih]

theorem mapErase_sublist [DecidableEq K] (m : List (K × A)) (k : K) :
    List.Sublist (mapErase m k) m := by
  induction m with
  | nil => simp [mapErase]
  | cons p t ih =>
    obtain ⟨k2, a2⟩ := p
    by_cases he : k = k2
    · simp only [mapErase, if_pos he]
      exact List.sublist_cons_self (k2, a2) t
    · simpa [mapErase, he] using ih.cons₂ (k2, a2)

theorem mapFind?_mapErase_self [LinearOrder K] {m : List (K × A)}
    (hs : (m.map Prod.fst).Pairwise (· < ·)) (k : K) :
    mapFind? (mapErase m k) k = none := by
  induction m with
  | nil => simp [mapErase, mapFind?]
  | cons p t ih =>
    obtain ⟨k2, a2⟩ := p
    simp only [List.map_cons, List.pairwise_cons] at hs
    by_cases he : k = k2
    · subst he
      have herase : mapErase ((k, a2) :: t) k = t := by simp [mapErase]
      rw [herase, mapFind?_eq_none_iff]
      intro p hp hk
      have hlt : k < p.1 := hs.1 p.1 (List.mem_map_of_mem Prod.fst hp)
      rw [hk] at hlt
      exact lt_irrefl _ hlt
    · simp [mapErase, he, mapFind?, ih hs.2]

theorem mapSet_mapSet [LinearOrder K] (m : List (K × A)) (k : K) (a b : A) :
    mapSet (mapSet m k a) k b = mapSet m k b := by
  induction m with
  | nil => simp [mapSet]
  | cons p t ih =>
    obtain ⟨k2, a2⟩ := p
    by_cases hlt : k < k2
    · simp [mapSet, hlt, lt_irrefl]
    · by_cases he : k = k2
      · simp [mapSet, hlt, he, lt_irrefl]
      · simp [mapSet, hlt, he, ih]

theorem mapSet_of_find [LinearOrder K] {m : List (K × A)} {k : K} {a : A}
    (hs : (m.map Prod.fst).Pairwise (· < ·))
    (h : mapFind? m k = some a) : mapSet m k a = m := by
  induction m with
  | nil => simp [mapFind?] at h
  | cons p t ih =>
    obtain ⟨k2, a2⟩ := p
    simp only [List.map_cons, List.pairwise_cons] at hs
    by_cases he : k = k2
    · subst he
      simp only [mapFind?, if_true, eq_self_iff_true, Option.some.injEq] at h
      subst h
      simp [mapSet, lt_irrefl]
    · simp only [mapFind?, if_neg he] at h
      have hk2 : k2 < k := by
        have := mapFind?_mem h
        exact hs.1 k (List.mem_map_of_mem Prod.fst this)
      have hnlt : ¬ k < k2 := not_lt_of_gt hk2
      simp [mapSet, hnlt, he, ih hs.2 h]

theorem mapErase_mapSet_of_none [LinearOrder K] {m : List (K × A)} {k : K}
    (a : A) (h : mapFind? m k = none) :
    mapErase (mapSet m k a) k = m := by
  induction m with
  | nil => simp [mapSet, mapErase]
  | cons p t ih =>
    obtain ⟨k2, a2⟩ := p
    have hne : k ≠ k2 := by
      intro he; subst he; simp [mapFind?] at h
    simp only [mapFind?, if_neg hne] at h
    by_cases hlt : k < k2
    · simp [mapSet, hlt, mapErase, hne, Ne.symm hne]
    · simp [mapSet, hlt, hne, mapErase, Ne.symm hne, ih h]

theorem mapEnsure_of_find [LinearOrder K] {m : List (K × A)} {k : K} {a : A}
    (h : mapFind? m k = some a) (dflt : A) : mapEnsure m k dflt = m := by
  unfold mapEnsure; rw [h]

theorem mapEnsure_of_none [LinearOrder K] {m : List (K × A)} {k : K}
    (h : mapFind? m k = none) (dflt : A) :
    mapEnsure m k dflt = mapSet m k dflt := by
  unfold mapEnsure; rw [h]

theorem mapFind?_mapEnsure_self [LinearOrder K] (m : List (K × A)) (k : K)
    (dflt : A) :
    mapFind? (mapEnsure m k dflt) k = some ((mapFind? m k).getD dflt) := by
  unfold mapEnsure
  cases h : mapFind? m k with
  | none => simp [mapFind?_mapSet_self]
  | some a => simp [h]

theorem mapSet_mapEnsure [LinearOrder K] (m : List (K × A)) (k : K)
    (dflt a : A) : mapSet (mapEnsure m k dflt) k a = mapSet m k a := by
  unfold mapEnsure
  cases h : mapFind? m k with
  | none => simp [mapSet_mapSet]
  | some b => rfl

theorem mem_keys_mapSet [LinearOrder K] {m : List (K × A)} {k x : K} {a : A} :
    x ∈ (mapSet m k a).map Prod.fst ↔ x = k ∨ x ∈ m.map Prod.fst := by
  induction m with
  | nil => simp [mapSet]
  | cons p t ih =>
    obtain ⟨k2, a2⟩ := p
    by_cases hlt : k < k2
    · simp [mapSet, hlt]
    · by_cases he : k = k2
      · subst he; simp [mapSet, hlt]
      · simp only [mapSet, if_neg hlt, if_neg he, List.map_cons,
          List.mem_cons, ih]
        tauto

theorem sorted_mapSet [LinearOrder K] {m : List (K × A)} (k : K) (a : A)
    (hs : (m.map Prod.fst).Pairwise (· < ·)) :
    ((mapSet m k a).map Prod.fst).Pairwise (· < ·) := by
  induction m with
  | nil => simp [mapSet]
  | cons p t ih =>
    obtain ⟨k2, a2⟩ := p
    simp only [List.map_cons, List.pairwise_cons] at hs
    by_cases hlt : k < k2
    · simp only [mapSet, if_pos hlt, List.map_cons, List.pairwise_cons]
      refine ⟨?_, hs.1, hs.2⟩
      intro x hx
      rcases List.mem_cons.mp hx with hx | hx
      · subst hx; exact hlt
      · exact lt_trans hlt (hs.1 x hx)
    · by_cases he : k = k2
      · subst he
        have hset : mapSet ((k, a2) :: t) k a = (k, a) :: t := by
          simp [mapSet, hlt]
        rw [hset]
        simp only [List.map_cons, List.pairwise_cons]
        exact hs
      · have hset : mapSet ((k2, a2) :: t) k a = (k2, a2) :: mapSet t k a := by
          simp [mapSet, hlt, he]
        rw [hset]
        simp only [List.map_cons, List.pairwise_cons]
        refine ⟨?_, ih hs.2⟩
        intro x hx
        rcases mem_keys_mapSet.mp hx with hx | hx
        · rw [hx]
          rcases lt_trichotomy k k2 with h | h | h
          · exact absurd h hlt
          · exact absurd h he
          · exact h
        · exact hs.1 x hx

theorem sorted_mapErase [LinearOrder K] {m : List (K × A)} (k : K)
    (hs : (m.map Prod.fst).Pairwise (· < ·)) :
    ((mapErase m k).map Prod.fst).Pairwise (· < ·) :=
  hs.sublist ((mapErase_sublist m k).map Prod.fst)

theorem sorted_mapEnsure [LinearOrder K] {m : List (K × A)} (k : K)
    (dflt : A) (hs : (m.map Prod.fst).Pairwise (· < ·)) :
    ((mapEnsure m k dflt).map Prod.fst).Pairwise (· < ·) := by
  unfold mapEnsure
  cases mapFind? m k with
  | none => exact sorted_mapSet k dflt hs
  | some a => exact hs

theorem mem_mapSet_iff [LinearOrder K] {m : List (K × A)} {k : K} {a : A}
    (hs : (m.map Prod.fst).Pairwise (· < ·)) {p : K × A} :
    p ∈ mapSet m k a ↔ p = (k, a) ∨ (p ∈ m ∧ p.1 ≠ k) := by
  induction m with
  | nil => simp [mapSet]
  | cons q t ih =>
    obtain ⟨k2, a2⟩ := q
    simp only [List.map_cons, List.pairwise_cons] at hs
    have hbound : ∀ x ∈ t, k2 < x.1 := fun x hx =>
      hs.1 x.1 (List.mem_map_of_mem Prod.fst hx)
    by_cases hlt : k < k2
    · have hset : mapSet ((k2, a2) :: t) k a = (k, a) :: (k2, a2) :: t := by
        simp [mapSet, hlt]
      rw [hset]
      simp only [List.mem_cons]
      constructor
      · rintro (h | h | h)
        · exact Or.inl h
        · subst h
          refine Or.inr ⟨Or.inl rfl, ?_⟩
          intro he
          change k2 = k at he
          rw [he] at hlt
          exact lt_irrefl _ hlt
        · refine Or.inr ⟨Or.inr h, ?_⟩
          intro he
          have hgt := hbound p h
          rw [he] at hgt
          exact absurd (lt_trans hlt hgt) (lt_irrefl _)
      · rintro (h | ⟨h | h, hne⟩)
        · exact Or.inl h
        · exact Or.inr (Or.inl h)
        · exact Or.inr (Or.inr h)
    · by_cases he : k = k2
      · subst he
        have hset : mapSet ((k, a2) :: t) k a = (k, a) :: t := by
          simp [mapSet, hlt]
        rw [hset]
        simp only [List.mem_cons]
        constructor
        · rintro (h | h)
          · exact Or.inl h
          · refine Or.inr ⟨Or.inr h, ?_⟩
            intro hek
            have hgt := hbound p h
            rw [hek] at hgt
            exact lt_irrefl _ hgt
        · rintro (h | ⟨h | h, hne⟩)
          · exact Or.inl h
          · exact absurd (by rw [h]) hne
          · exact Or.inr h
      · have hset : mapSet ((k2, a2) :: t) k a = (k2, a2) :: mapSet t k a := by
          simp [mapSet, hlt, he]
        rw [hset]
        simp only [List.mem_cons, ih hs.2]
        constructor
        · rintro (h | h | ⟨h, hne⟩)
          · subst h
            refine Or.inr ⟨Or.inl rfl, ?_⟩
            intro hek
            exact he hek.symm
          · exact Or.inl h
          · exact Or.inr ⟨Or.inr h, hne⟩
        · rintro (h | ⟨h | h, hne⟩)
          · exact Or.inr (Or.inl h)
          · exact Or.inl h
          · exact Or.inr (Or.inr ⟨h, hne⟩)

theorem mem_mapErase_iff [LinearOrder K] {m : List (K × A)} {k : K}
    (hs : (m.map Prod.fst).Pairwise (· < ·)) {p : K × A} :
    p ∈ mapErase m k ↔ p ∈ m ∧ p.1 ≠ k := by
  induction m with
  | nil => simp [mapErase]
  | cons q t ih =>
    obtain ⟨k2, a2⟩ := q
    simp only [List.map_cons, List.pairwise_cons] at hs
    have hbound : ∀ x ∈ t, k2 < x.1 := fun x hx =>
      hs.1 x.1 (List.mem_map_of_mem Prod.fst hx)
    by_cases he : k = k2
    · subst he
      have herase : mapErase ((k, a2) :: t) k = t := by simp [mapErase]
      rw [herase]
      simp only [List.mem_cons]
      constructor
      · intro h
        refine ⟨Or.inr h, ?_⟩
        intro hek
        have hgt := hbound p h
        rw [hek] at hgt
        exact lt_irrefl _ hgt
      · rintro ⟨h | h, hne⟩
        · exact absurd (by rw [h]) hne
        · exact h
    · have herase : mapErase ((k2, a2) :: t) k = (k2, a2) :: mapErase t k := by
        simp [mapErase, he]
      rw [herase]
      simp only [List.mem_cons, ih hs.2]
      constructor
      · rintro (h | ⟨h, hne⟩)
        · subst h
          exact ⟨Or.inl rfl, fun hek => he hek.symm⟩
        · exact ⟨Or.inr h, hne⟩
      · rintro ⟨h | h, hne⟩
        · exact Or.inl h
        · exact Or.inr ⟨h, hne⟩

theorem mapSet_mem_self [LinearOrder K] (m : List (K × A)) (k : K) (a : A) :
    (k, a) ∈ mapSet m k a := by
  induction m with
  | nil => simp [mapSet]
  | cons p t ih =>
    obtain ⟨k2, a2⟩ := p
    by_cases hlt : k < k2
    · simp [mapSet, hlt]
    · by_cases he : k = k2
      · simp [mapSet, hlt, he]
      · simp only [mapSet, if_neg hlt, if_neg he, List.mem_cons]
        exact Or.inr ih

/-! ### Lemmas about node-id lists and `idsWithKey` -/

theorem lookupId_isSome_of_mem {b : List (Nat × V)} {n : Nat}
    (h : n ∈ b.map Prod.fst) : (lookupId b n).isSome := by
  induction b with
  | nil => simp at h
  | cons p t ih =>
    obtain ⟨i, v⟩ := p
    by_cases he : n = i
    · simp [lookupId, he]
    · simp only [List.map_cons, List.mem_cons] at h
      rcases h with h | h
      · exact absurd h he
      · simp only [lookupId, if_neg he]
        exact ih h

theorem eraseId_concat_fresh {b : List (Nat × V)} {n : Nat} (v : V)
    (h : ∀ q ∈ b, q.1 ≠ n) : eraseId (b ++ [(n, v)]) n = b := by
  induction b with
  | nil => simp [eraseId]
  | cons p t ih =>
    obtain ⟨i, v2⟩ := p
    have hne : n ≠ i := fun he => (h (i, v2) (List.mem_cons_self _ _)) he.symm
    simp only [List.cons_append, eraseId, if_neg hne, List.append_eq]
    rw [ih (fun q hq => h q (List.mem_cons_of_mem _ hq))]

theorem eraseEntryById_middle [DecidableEq K] {A B : List (K × Nat)} {k : K}
    {n : Nat} (h : ∀ e ∈ A, e.2 ≠ n) :
    eraseEntryById (A ++ (k, n) :: B) n = A ++ B := by
  induction A with
  | nil => simp [eraseEntryById]
  | cons p t ih =>
    obtain ⟨k2, i⟩ := p
    have hne : n ≠ i := fun he => (h (k2, i) (List.mem_cons_self _ _)) he.symm
    simp only [List.cons_append, eraseEntryById, if_neg hne, List.append_eq]
    rw [ih (fun e he => h e (List.mem_cons_of_mem _ he))]

theorem map_eq_concat_decomp {α β : Type} {f : α → β} {b : List α}
    {l : List β} {n : β} (h : b.map f = l ++ [n]) :
    ∃ b1 x, b = b1 ++ [x] ∧ f x = n ∧ b1.map f = l := by
  induction b generalizing l with
  | nil => simp at h
  | cons p t ih =>
    simp only [List.map_cons] at h
    cases l with
    | nil =>
      simp only [List.nil_append] at h
      have h1 : f p = n := by
        have := congrArg (fun l => l.head?) h
        simpa using this
      have h2 : t.map f = [] := by
        have := congrArg (fun l => l.tail) h
        simpa using this
      have h3 : t = [] := List.map_eq_nil_iff.mp h2
      subst h3
      exact ⟨[], p, by simp, h1, rfl⟩
    | cons x lt =>
      simp only [List.cons_append, List.cons.injEq] at h
      obtain ⟨h1, h2⟩ := h
      obtain ⟨b1, y, hb, hf, hm⟩ := ih h2
      exact ⟨p :: b1, y, by simp [hb], hf, by simp [hm, h1]⟩

theorem filter_concat_decomp {α : Type} {P : α → Bool} {l G : List α}
    {g : α} (h : l.filter P = G ++ [g]) :
    ∃ A B, l = A ++ g :: B ∧ A.filter P = G ∧ B.filter P = [] ∧ P g = true := by
  induction l generalizing G with
  | nil => simp at h
  | cons a t ih =>
    by_cases hp : P a
    · rw [List.filter_cons_of_pos hp] at h
      cases G with
      | nil =>
        simp only [List.nil_append, List.cons.injEq] at h
        obtain ⟨h1, h2⟩ := h
        subst h1
        exact ⟨[], t, by simp, by simp, h2, hp⟩
      | cons x Gt =>
        simp only [List.cons_append, List.cons.injEq] at h
        obtain ⟨h1, h2⟩ := h
        subst h1
        obtain ⟨A, B, hl, hA, hB, hg⟩ := ih h2
        refine ⟨a :: A, B, by simp [hl], ?_, hB, hg⟩
        rw [List.filter_cons_of_pos hp, hA]
    · rw [List.filter_cons_of_neg hp] at h
      obtain ⟨A, B, hl, hA, hB, hg⟩ := ih h
      refine ⟨a :: A, B, by simp [hl], ?_, hB, hg⟩
      rw [List.filter_cons_of_neg hp, hA]

theorem idsWithKey_concat_self [DecidableEq K] (els : List (K × Nat)) (k : K)
    (n : Nat) : idsWithKey (els ++ [(k, n)]) k = idsWithKey els k ++ [n] := by
  simp [idsWithKey, List.filter_append]

theorem idsWithKey_concat_ne [DecidableEq K] (els : List (K × Nat))
    {k k2 : K} (n : Nat) (h : k2 ≠ k) :
    idsWithKey (els ++ [(k, n)]) k2 = idsWithKey els k2 := by
  have hne : k ≠ k2 := Ne.symm h
  simp [idsWithKey, List.filter_append, hne]

theorem idsWithKey_sublist [DecidableEq K] (els : List (K × Nat)) (k : K) :
    List.Sublist (idsWithKey els k) (els.map Prod.snd) :=
  (List.filter_sublist els).map Prod.snd

theorem idsWithKey_eq_nil_iff [DecidableEq K] {els : List (K × Nat)}
    {k : K} : idsWithKey els k = [] ↔ ∀ e ∈ els, e.1 ≠ k := by
  simp [idsWithKey, List.filter_eq_nil_iff]

theorem mem_idsWithKey [DecidableEq K] {els : List (K × Nat)} {e : K × Nat}
    (he : e ∈ els) : e.2 ∈ idsWithKey els e.1 := by
  refine List.mem_map_of_mem Prod.snd ?_
  rw [List.mem_filter]
  exact ⟨he, by simp⟩

/-! ### Facts derived from the representation invariant -/

theorem Inv.bucket_find [LinearOrder K] {d : stack_data K V} (hInv : Inv d)
    (k : K) :
    ((mapFind? d.elements_by_key k).getD []).map Prod.fst =
      idsWithKey d.elements k := by
  obtain ⟨hs1, hs2, hbk, hkl, hc1, hc2, hnd, hlt⟩ := hInv
  cases h : mapFind? d.elements_by_key k with
  | some b =>
    have := (hbk (k, b) (mapFind?_mem h)).1
    simpa using this
  | none =>
    simp only [Option.getD_none, List.map_nil]
    by_contra hne
    have hex : ∃ e ∈ d.elements, e.1 = k := by
      by_contra hnone
      push_neg at hnone
      exact hne (idsWithKey_eq_nil_iff.mpr hnone).symm
    obtain ⟨e, hmem, hek⟩ := hex
    obtain ⟨p, hp, hpk⟩ := hc1 e hmem
    have := find_of_mem hs1 hp
    rw [hpk, hek] at this
    rw [h] at this
    exact Option.noConfusion this

theorem Inv.ktl_find [LinearOrder K] {d : stack_data K V} (hInv : Inv d)
    (k : K) :
    (mapFind? d.key_to_list_map k).getD [] = idsWithKey d.elements k := by
  obtain ⟨hs1, hs2, hbk, hkl, hc1, hc2, hnd, hlt⟩ := hInv
  cases h : mapFind? d.key_to_list_map k with
  | some l =>
    have := (hkl (k, l) (mapFind?_mem h)).1
    simpa using this
  | none =>
    simp only [Option.getD_none]
    by_contra hne
    have hex : ∃ e ∈ d.elements, e.1 = k := by
      by_contra hnone
      push_neg at hnone
      exact hne (idsWithKey_eq_nil_iff.mpr hnone).symm
    obtain ⟨e, hmem, hek⟩ := hex
    obtain ⟨p, hp, hpk⟩ := hc2 e hmem
    have := find_of_mem hs2 hp
    rw [hpk, hek] at this
    rw [h] at this
    exact Option.noConfusion this

theorem Inv.ebk_find_of_has [LinearOrder K] {d : stack_data K V}
    (hInv : Inv d) {k : K} (h : idsWithKey d.elements k ≠ []) :
    ∃ b, mapFind? d.elements_by_key k = some b ∧
      b.map Prod.fst = idsWithKey d.elements k := by
  cases hf : mapFind? d.elements_by_key k with
  | some b =>
    refine ⟨b, rfl, ?_⟩
    have := hInv.bucket_find k
    rw [hf] at this
    simpa using this
  | none =>
    exfalso
    have := hInv.bucket_find k
    rw [hf] at this
    simp only [Option.getD_none, List.map_nil] at this
    exact h this.symm

theorem Inv.ktl_find_of_has [LinearOrder K] {d : stack_data K V}
    (hInv : Inv d) {k : K} (h : idsWithKey d.elements k ≠ []) :
    mapFind? d.key_to_list_map k = some (idsWithKey d.elements k) := by
  cases hf : mapFind? d.key_to_list_map k with
  | some l =>
    have := hInv.ktl_find k
    rw [hf] at this
    simp only [Option.getD_some] at this
    rw [this]
  | none =>
    exfalso
    have := hInv.ktl_find k
    rw [hf] at this
    simp only [Option.getD_none] at this
    exact h this.symm

/-! ### Invariant preservation -/

theorem push_eq [LinearOrder K] (d : stack_data K V) (key : K) (value : V) :
    d.push key value =
      ⟨mapSet d.elements_by_key key
         ((mapFind? d.elements_by_key key).getD [] ++ [(d.next_id, value)]),
       d.elements ++ [(key, d.next_id)],
       mapSet d.key_to_list_map key
         ((mapFind? d.key_to_list_map key).getD [] ++ [d.next_id]),
       d.next_id + 1⟩ := by
  simp only [stack_data.push]
  rw [mapSet_mapEnsure, mapSet_mapEnsure, mapFind?_mapEnsure_self,
    mapFind?_mapEnsure_self]
  simp

theorem inv_empty [LinearOrder K] : Inv (emptyData : stack_data K V) := by
  simp [Inv, emptyData]

theorem inv_clear [LinearOrder K] (d : stack_data K V) :
    Inv d.clearData := by
  simp [Inv, stack_data.clearData]

theorem inv_push [LinearOrder K] {d : stack_data K V} (hInv : Inv d)
    (key : K) (value : V) : Inv (d.push key value) := by
  have hB0 := hInv.bucket_find key
  have hL0 := hInv.ktl_find key
  have hcopy := hInv
  obtain ⟨hs1, hs2, hbk, hkl, hc1, hc2, hnd, hltid⟩ := hcopy
  rw [push_eq]
  have hfresh : d.next_id ∉ d.elements.map Prod.snd := by
    intro hmem
    obtain ⟨e, he, hee⟩ := List.mem_map.mp hmem
    have := hltid e he
    rw [hee] at this
    exact lt_irrefl _ this
  refine ⟨sorted_mapSet key _ hs1, sorted_mapSet key _ hs2, ?_, ?_, ?_, ?_,
    ?_, ?_⟩
  · intro p hp
    rcases (mem_mapSet_iff hs1).mp hp with hp | ⟨hp, hpk⟩
    · subst hp
      constructor
      · show ((mapFind? d.elements_by_key key).getD [] ++
          [(d.next_id, value)]).map Prod.fst = _
        rw [List.map_append, hB0]
        rw [idsWithKey_concat_self]
        rfl
      · simp
    · constructor
      · show p.2.map Prod.fst = idsWithKey (d.elements ++ [(key, d.next_id)]) p.1
        rw [idsWithKey_concat_ne _ _ hpk]
        exact (hbk p hp).1
      · exact (hbk p hp).2
  · intro p hp
    rcases (mem_mapSet_iff hs2).mp hp with hp | ⟨hp, hpk⟩
    · subst hp
      constructor
      · show (mapFind? d.key_to_list_map key).getD [] ++ [d.next_id] = _
        rw [hL0, idsWithKey_concat_self]
      · simp
    · constructor
      · show p.2 = idsWithKey (d.elements ++ [(key, d.next_id)]) p.1
        rw [idsWithKey_concat_ne _ _ hpk]
        exact (hkl p hp).1
      · exact (hkl p hp).2
  · intro e he
    rcases List.mem_append.mp he with he | he
    · by_cases hek : e.1 = key
      · exact ⟨(key, (mapFind? d.elements_by_key key).getD [] ++
          [(d.next_id, value)]), mapSet_mem_self _ _ _, hek.symm⟩
      · obtain ⟨p, hp, hpk⟩ := hc1 e he
        refine ⟨p, ?_, hpk⟩
        refine (mem_mapSet_iff hs1).mpr (Or.inr ⟨hp, ?_⟩)
        rw [hpk]; exact hek
    · have : e = (key, d.next_id) := by simpa using he
      subst this
      exact ⟨(key, (mapFind? d.elements_by_key key).getD [] ++
        [(d.next_id, value)]), mapSet_mem_self _ _ _, rfl⟩
  · intro e he
    rcases List.mem_append.mp he with he | he
    · by_cases hek : e.1 = key
      · exact ⟨(key, (mapFind? d.key_to_list_map key).getD [] ++
          [d.next_id]), mapSet_mem_self _ _ _, hek.symm⟩
      · obtain ⟨p, hp, hpk⟩ := hc2 e he
        refine ⟨p, ?_, hpk⟩
        refine (mem_mapSet_iff hs2).mpr (Or.inr ⟨hp, ?_⟩)
        rw [hpk]; exact hek
    · have : e = (key, d.next_id) := by simpa using he
      subst this
      exact ⟨(key, (mapFind? d.key_to_list_map key).getD [] ++
        [d.next_id]), mapSet_mem_self _ _ _, rfl⟩
  · show ((d.elements ++ [(key, d.next_id)]).map Prod.snd).Nodup
    rw [List.map_append]
    simp only [List.map_cons, List.map_nil]
    rw [List.nodup_append]
    refine ⟨hnd, List.nodup_singleton _, ?_⟩
    intro n hn hn2
    simp only [List.mem_singleton] at hn2
    subst hn2
    exact hfresh hn
  · intro e he
    rcases List.mem_append.mp he with he | he
    · exact Nat.lt_trans (hltid e he) (Nat.lt_succ_self _)
    · have : e = (key, d.next_id) := by simpa using he
      subst this
      exact Nat.lt_succ_self _

theorem pop_eq [LinearOrder K] {d : stack_data K V} {E : List (K × Nat)}
    {key : K} {vid : Nat} (hE : d.elements = E ++ [(key, vid)]) :
    d.pop = (none,
      ⟨(if (eraseId ((mapFind? (mapEnsure d.elements_by_key key []) key).getD
            []) vid).isEmpty
        then mapErase (mapEnsure d.elements_by_key key []) key
        else mapSet (mapEnsure d.elements_by_key key []) key
          (eraseId ((mapFind? (mapEnsure d.elements_by_key key []) key).getD
            []) vid)),
       E,
       (if ((mapFind? (mapEnsure d.key_to_list_map key []) key).getD
            []).dropLast.isEmpty
        then mapErase (mapEnsure d.key_to_list_map key []) key
        else mapSet (mapEnsure d.key_to_list_map key []) key
          ((mapFind? (mapEnsure d.key_to_list_map key []) key).getD
            []).dropLast),
       d.next_id⟩) := by
  simp only [stack_data.pop, hE]
  simp [List.getLast?_concat, List.dropLast_concat]

theorem inv_pop [LinearOrder K] {d : stack_data K V} (hInv : Inv d)
    (hne : d.elements ≠ []) : Inv d.pop.2 := by
  rcases List.eq_nil_or_concat d.elements with h0 | ⟨E, e, hE⟩
  · exact absurd h0 hne
  obtain ⟨key, vid⟩ := e
  rw [List.concat_eq_append] at hE
  have hcopy := hInv
  obtain ⟨hs1, hs2, hbk, hkl, hc1, hc2, hnd, hltid⟩ := hcopy
  have hids : idsWithKey d.elements key = idsWithKey E key ++ [vid] := by
    rw [hE, idsWithKey_concat_self]
  have hidsne : ∀ k2, k2 ≠ key →
      idsWithKey d.elements k2 = idsWithKey E k2 :=
    fun k2 hk => by rw [hE, idsWithKey_concat_ne _ _ hk]
  have hndE : ((E.map Prod.snd) ++ [vid]).Nodup := by
    have hh := hnd
    rw [hE, List.map_append] at hh
    simpa using hh
  have hndE2 : (E.map Prod.snd).Nodup := (List.nodup_append.mp hndE).1
  have hvidfresh : vid ∉ E.map Prod.snd := by
    have h3 := (List.nodup_append.mp hndE).2.2
    intro hmem
    exact h3 hmem (List.mem_singleton.mpr rfl)
  have hvidnotid : vid ∉ idsWithKey E key :=
    fun hmem => hvidfresh ((idsWithKey_sublist E key).subset hmem)
  have hhas : idsWithKey d.elements key ≠ [] := by
    rw [hids]; simp
  have hktlfind : mapFind? d.key_to_list_map key =
      some (idsWithKey E key ++ [vid]) := by
    have hh := hInv.ktl_find_of_has hhas
    rw [hids] at hh; exact hh
  have hktl0 : mapEnsure d.key_to_list_map key [] = d.key_to_list_map :=
    mapEnsure_of_find hktlfind []
  obtain ⟨b, hbfind, hbids⟩ := hInv.ebk_find_of_has hhas
  have hebk0 : mapEnsure d.elements_by_key key [] = d.elements_by_key :=
    mapEnsure_of_find hbfind []
  rw [hids] at hbids
  obtain ⟨B, x, hbdec, hx1, hBids⟩ := map_eq_concat_decomp hbids
  have hBfresh : ∀ q ∈ B, q.1 ≠ vid := by
    intro q hq hq1
    apply hvidnotid
    rw [← hBids, ← hq1]
    exact List.mem_map_of_mem Prod.fst hq
  have hxeq : x = (vid, x.2) := by
    rw [← hx1]
  have herase : eraseId b vid = B := by
    rw [hbdec, hxeq]
    exact eraseId_concat_fresh x.2 hBfresh
  have hmemE : ∀ e2 ∈ E, e2 ∈ d.elements := by
    intro e2 he2
    rw [hE]
    exact List.mem_append_left _ he2
  rw [pop_eq hE]
  dsimp only
  rw [hktl0, hebk0, hktlfind, hbfind]
  simp only [Option.getD_some, List.dropLast_concat, herase]
  by_cases hL : idsWithKey E key = []
  · have hBnil : B = [] := by
      rw [← List.map_eq_nil_iff (f := Prod.fst)]
      rw [hBids, hL]
    simp only [hL, hBnil, List.isEmpty_nil, if_true]
    refine ⟨sorted_mapErase key hs1, sorted_mapErase key hs2, ?_, ?_, ?_, ?_,
      hndE2, ?_⟩
    · intro p hp
      obtain ⟨hp, hpk⟩ := (mem_mapErase_iff hs1).mp hp
      refine ⟨?_, (hbk p hp).2⟩
      show p.2.map Prod.fst = idsWithKey E p.1
      rw [← hidsne p.1 hpk]
      exact (hbk p hp).1
    · intro p hp
      obtain ⟨hp, hpk⟩ := (mem_mapErase_iff hs2).mp hp
      refine ⟨?_, (hkl p hp).2⟩
      show p.2 = idsWithKey E p.1
      rw [← hidsne p.1 hpk]
      exact (hkl p hp).1
    · intro e2 he2
      have hek : e2.1 ≠ key := by
        intro hk
        have := mem_idsWithKey he2
        rw [hk, hL] at this
        simp at this
      obtain ⟨p, hp, hpk⟩ := hc1 e2 (hmemE e2 he2)
      refine ⟨p, (mem_mapErase_iff hs1).mpr ⟨hp, ?_⟩, hpk⟩
      rw [hpk]; exact hek
    · intro e2 he2
      have hek : e2.1 ≠ key := by
        intro hk
        have := mem_idsWithKey he2
        rw [hk, hL] at this
        simp at this
      obtain ⟨p, hp, hpk⟩ := hc2 e2 (hmemE e2 he2)
      refine ⟨p, (mem_mapErase_iff hs2).mpr ⟨hp, ?_⟩, hpk⟩
      rw [hpk]; exact hek
    · exact fun e2 he2 => hltid e2 (hmemE e2 he2)
  · have hBne : B ≠ [] := by
      intro hB
      rw [hB] at hBids
      exact hL hBids.symm
    have hBne2 : B.isEmpty = false := by
      cases B with
      | nil => exact absurd rfl hBne
      | cons q t => rfl
    have hLne2 : (idsWithKey E key).isEmpty = false := by
      cases hw : idsWithKey E key with
      | nil => exact absurd hw hL
      | cons q t => rfl
    simp only [hBne2, hLne2, if_false]
    refine ⟨sorted_mapSet key B hs1, sorted_mapSet key _ hs2, ?_, ?_, ?_, ?_,
      hndE2, ?_⟩
    · intro p hp
      rcases (mem_mapSet_iff hs1).mp hp with hp | ⟨hp, hpk⟩
      · subst hp
        exact ⟨hBids, hBne⟩
      · refine ⟨?_, (hbk p hp).2⟩
        show p.2.map Prod.fst = idsWithKey E p.1
        rw [← hidsne p.1 hpk]
        exact (hbk p hp).1
    · intro p hp
      rcases (mem_mapSet_iff hs2).mp hp with hp | ⟨hp, hpk⟩
      · subst hp
        exact ⟨rfl, hL⟩
      · refine ⟨?_, (hkl p hp).2⟩
        show p.2 = idsWithKey E p.1
        rw [← hidsne p.1 hpk]
        exact (hkl p hp).1
    · intro e2 he2
      by_cases hek : e2.1 = key
      · exact ⟨(key, B), mapSet_mem_self _ _ _, hek.symm⟩
      · obtain ⟨p, hp, hpk⟩ := hc1 e2 (hmemE e2 he2)
        refine ⟨p, (mem_mapSet_iff hs1).mpr (Or.inr ⟨hp, ?_⟩), hpk⟩
        rw [hpk]; exact hek
    · intro e2 he2
      by_cases hek : e2.1 = key
      · exact ⟨(key, idsWithKey E key), mapSet_mem_self _ _ _, hek.symm⟩
      · obtain ⟨p, hp, hpk⟩ := hc2 e2 (hmemE e2 he2)
        refine ⟨p, (mem_mapSet_iff hs2).mpr (Or.inr ⟨hp, ?_⟩), hpk⟩
        rw [hpk]; exact hek
    · exact fun e2 he2 => hltid e2 (hmemE e2 he2)

theorem popKey_err_iff [LinearOrder K] (d : stack_data K V) (key : K) :
    (d.popKey key).1 = some noSuchKeyErr ↔ d.count key = 0 := by
  simp only [stack_data.popKey, mapFind?_mapEnsure_self, Option.getD_some]
  cases hb : mapFind? d.elements_by_key key with
  | none =>
    simp [stack_data.count, hb]
  | some b =>
    cases b with
    | nil => simp [stack_data.count, hb]
    | cons q t =>
      simp only [Option.getD_some, List.isEmpty_cons, if_false,
        Bool.false_eq_true]
      have hcnt : d.count key = (q :: t).length := by
        simp [stack_data.count, hb]
      cases hlast : ((mapFind? d.key_to_list_map key).getD []).getLast? with
      | none => simp [hlast, hcnt]
      | some x => simp [hlast, hcnt]

theorem popKey_none_iff [LinearOrder K] (d : stack_data K V) (key : K) :
    (d.popKey key).1 = none ↔ d.count key ≠ 0 := by
  constructor
  · intro h hc
    rw [(popKey_err_iff d key).mpr hc] at h
    exact Option.noConfusion h
  · intro hc
    cases h : (d.popKey key).1 with
    | none => rfl
    | some e =>
      exfalso
      have : e = noSuchKeyErr := by
        simp only [stack_data.popKey] at h
        by_cases hb : ((mapFind? (mapEnsure d.elements_by_key key [])
            key).getD []).isEmpty
        · simp only [hb, if_true] at h
          exact (Option.some.injEq _ _).mp h |>.symm ▸ rfl
        · simp only [hb, if_false, Bool.false_eq_true] at h
          cases hlast : ((mapFind? (mapEnsure
              (⟨mapEnsure d.elements_by_key key [], d.elements,
                d.key_to_list_map, d.next_id⟩ : stack_data K V).key_to_list_map
              key []) key).getD []).getLast? with
          | none => rw [hlast] at h; exact Option.noConfusion h
          | some popId => rw [hlast] at h; exact Option.noConfusion h
      rw [this] at h
      exact hc ((popKey_err_iff d key).mp h)

theorem popKey_eq [LinearOrder K] {d : stack_data K V} {key : K}
    {b : List (Nat × V)} {l0 : List Nat} {popId : Nat}
    (hb : mapFind? d.elements_by_key key = some b)
    (hbne : b.isEmpty = false)
    (hl : mapFind? d.key_to_list_map key = some l0)
    (hlast : l0.getLast? = some popId) :
    d.popKey key = (none,
      ⟨(if b.dropLast.isEmpty then mapErase d.elements_by_key key
        else mapSet d.elements_by_key key b.dropLast),
       eraseEntryById d.elements popId,
       (if l0.dropLast.isEmpty then mapErase d.key_to_list_map key
        else mapSet d.key_to_list_map key l0.dropLast),
       d.next_id⟩) := by
  simp only [stack_data.popKey, mapEnsure_of_find hb, hb, Option.getD_some,
    hbne, if_false, Bool.false_eq_true]
  simp only [mapEnsure_of_find hl, hl, Option.getD_some, hlast]

theorem inv_popKey [LinearOrder K] {d : stack_data K V} (hInv : Inv d)
    {key : K} (hcnt : d.count key ≠ 0) : Inv (d.popKey key).2 := by
  have hcopy := hInv
  obtain ⟨hs1, hs2, hbk, hkl, hc1, hc2, hnd, hltid⟩ := hcopy
  obtain ⟨b, hb, hbne⟩ :
      ∃ b, mapFind? d.elements_by_key key = some b ∧ b ≠ [] := by
    cases hb : mapFind? d.elements_by_key key with
    | none => exact absurd (by simp [stack_data.count, hb]) hcnt
    | some b =>
      refine ⟨b, rfl, ?_⟩
      intro hb0
      exact hcnt (by simp [stack_data.count, hb, hb0])
  have hbids : b.map Prod.fst = idsWithKey d.elements key := by
    have hh := hInv.bucket_find key
    rw [hb] at hh
    simpa using hh
  have hhas : idsWithKey d.elements key ≠ [] := by
    intro h0
    rw [← hbids] at h0
    exact hbne (List.map_eq_nil_iff.mp h0)
  have hl : mapFind? d.key_to_list_map key =
      some (idsWithKey d.elements key) := hInv.ktl_find_of_has hhas
  obtain ⟨L, popId, hLdec⟩ :
      ∃ L popId, idsWithKey d.elements key = L ++ [popId] := by
    rcases List.eq_nil_or_concat (idsWithKey d.elements key) with h0 | ⟨L, n, hh⟩
    · exact absurd h0 hhas
    · exact ⟨L, n, by rw [hh, List.concat_eq_append]⟩
  have hlast : (idsWithKey d.elements key).getLast? = some popId := by
    rw [hLdec]
    exact List.getLast?_concat _
  have hbne2 : b.isEmpty = false := by
    cases b with
    | nil => exact absurd rfl hbne
    | cons q t => rfl
  rw [popKey_eq hb hbne2 hl hlast]
  -- Decompose `elements` around the popped entry.
  have hFids : (d.elements.filter (fun e => decide (e.1 = key))).map Prod.snd
      = L ++ [popId] := by
    rw [← hLdec]
    rfl
  obtain ⟨F1, e0, hFdec, he02, hF1⟩ := map_eq_concat_decomp hFids
  obtain ⟨A, B, hels, hA, hB, hPe0⟩ := filter_concat_decomp hFdec
  have he01 : e0.1 = key := of_decide_eq_true hPe0
  have he0 : e0 = (key, popId) := by
    rw [← he01, ← he02]
  rw [he0] at hels
  have hApopId : ∀ e2 ∈ A, e2.2 ≠ popId := by
    have hh := hnd
    rw [hels, List.map_append, List.map_cons] at hh
    have h3 : popId ∉ A.map Prod.snd ++ B.map Prod.snd := by
      rw [List.nodup_middle] at hh
      rw [List.nodup_cons] at hh
      exact hh.1
    intro e2 he2 hee
    apply h3
    apply List.mem_append_left
    rw [← hee]
    exact List.mem_map_of_mem Prod.snd he2
  have heraseE : eraseEntryById d.elements popId = A ++ B := by
    rw [hels]
    exact eraseEntryById_middle hApopId
  have hsub : List.Sublist (A ++ B) d.elements := by
    rw [hels]
    exact (List.sublist_cons_self (key, popId) B).append_left A
  have hidsAB : idsWithKey (A ++ B) key = L := by
    show ((A ++ B).filter (fun e => decide (e.1 = key))).map Prod.snd = L
    rw [List.filter_append, hA, hB, List.append_nil, hF1]
  have hidsABne : ∀ k2, k2 ≠ key →
      idsWithKey (A ++ B) k2 = idsWithKey d.elements k2 := by
    intro k2 hk
    show ((A ++ B).filter (fun e => decide (e.1 = k2))).map Prod.snd =
      (d.elements.filter (fun e => decide (e.1 = k2))).map Prod.snd
    rw [hels, List.filter_append, List.filter_append,
      List.filter_cons_of_neg (by simp; exact fun hh => hk hh.symm)]
  -- Decompose the bucket.
  rw [hLdec] at hbids
  obtain ⟨Bb, xb, hbdec, hxb1, hBbids⟩ := map_eq_concat_decomp hbids
  have hbdrop : b.dropLast = Bb := by
    rw [hbdec, List.dropLast_concat]
  have hldrop : (idsWithKey d.elements key).dropLast = L := by
    rw [hLdec, List.dropLast_concat]
  rw [hbdrop, hldrop, heraseE]
  have hmemAB : ∀ e2 ∈ A ++ B, e2 ∈ d.elements := fun e2 he2 =>
    hsub.subset he2
  by_cases hLnil : L = []
  · have hBbnil : Bb = [] := by
      rw [← List.map_eq_nil_iff (f := Prod.fst), hBbids, hLnil]
    simp only [hLnil, hBbnil, List.isEmpty_nil, if_true]
    refine ⟨sorted_mapErase key hs1, sorted_mapErase key hs2, ?_, ?_, ?_, ?_,
      ?_, ?_⟩
    · intro p hp
      obtain ⟨hp, hpk⟩ := (mem_mapErase_iff hs1).mp hp
      refine ⟨?_, (hbk p hp).2⟩
      show p.2.map Prod.fst = idsWithKey (A ++ B) p.1
      rw [hidsABne p.1 hpk]
      exact (hbk p hp).1
    · intro p hp
      obtain ⟨hp, hpk⟩ := (mem_mapErase_iff hs2).mp hp
      refine ⟨?_, (hkl p hp).2⟩
      show p.2 = idsWithKey (A ++ B) p.1
      rw [hidsABne p.1 hpk]
      exact (hkl p hp).1
    · intro e2 he2
      have hek : e2.1 ≠ key := by
        intro hk
        have hmm := mem_idsWithKey he2
        rw [hk, hidsAB, hLnil] at hmm
        simp at hmm
      obtain ⟨p, hp, hpk⟩ := hc1 e2 (hmemAB e2 he2)
      refine ⟨p, (mem_mapErase_iff hs1).mpr ⟨hp, ?_⟩, hpk⟩
      rw [hpk]; exact hek
    · intro e2 he2
      have hek : e2.1 ≠ key := by
        intro hk
        have hmm := mem_idsWithKey he2
        rw [hk, hidsAB, hLnil] at hmm
        simp at hmm
      obtain ⟨p, hp, hpk⟩ := hc2 e2 (hmemAB e2 he2)
      refine ⟨p, (mem_mapErase_iff hs2).mpr ⟨hp, ?_⟩, hpk⟩
      rw [hpk]; exact hek
    · exact hnd.sublist (hsub.map Prod.snd)
    · exact fun e2 he2 => hltid e2 (hmemAB e2 he2)
  · have hBbne : Bb ≠ [] := by
      intro hB0
      rw [hB0] at hBbids
      exact hLnil hBbids.symm
    have hBbne2 : Bb.isEmpty = false := by
      cases Bb with
      | nil => exact absurd rfl hBbne
      | cons q t => rfl
    have hLne2 : L.isEmpty = false := by
      cases L with
      | nil => exact absurd rfl hLnil
      | cons q t => rfl
    simp only [hBbne2, hLne2, if_false, Bool.false_eq_true]
    refine ⟨sorted_mapSet key Bb hs1, sorted_mapSet key L hs2, ?_, ?_, ?_, ?_,
      ?_, ?_⟩
    · intro p hp
      rcases (mem_mapSet_iff hs1).mp hp with hp | ⟨hp, hpk⟩
      · subst hp
        refine ⟨?_, hBbne⟩
        show Bb.map Prod.fst = idsWithKey (A ++ B) key
        rw [hBbids, hidsAB]
      · refine ⟨?_, (hbk p hp).2⟩
        show p.2.map Prod.fst = idsWithKey (A ++ B) p.1
        rw [hidsABne p.1 hpk]
        exact (hbk p hp).1
    · intro p hp
      rcases (mem_mapSet_iff hs2).mp hp with hp | ⟨hp, hpk⟩
      · subst hp
        refine ⟨?_, hLnil⟩
        show L = idsWithKey (A ++ B) key
        rw [hidsAB]
      · refine ⟨?_, (hkl p hp).2⟩
        show p.2 = idsWithKey (A ++ B) p.1
        rw [hidsABne p.1 hpk]
        exact (hkl p hp).1
    · intro e2 he2
      by_cases hek : e2.1 = key
      · exact ⟨(key, Bb), mapSet_mem_self _ _ _, hek.symm⟩
      · obtain ⟨p, hp, hpk⟩ := hc1 e2 (hmemAB e2 he2)
        refine ⟨p, (mem_mapSet_iff hs1).mpr (Or.inr ⟨hp, ?_⟩), hpk⟩
        rw [hpk]; exact hek
    · intro e2 he2
      by_cases hek : e2.1 = key
      · exact ⟨(key, L), mapSet_mem_self _ _ _, hek.symm⟩
      · obtain ⟨p, hp, hpk⟩ := hc2 e2 (hmemAB e2 he2)
        refine ⟨p, (mem_mapSet_iff hs2).mpr (Or.inr ⟨hp, ?_⟩), hpk⟩
        rw [hpk]; exact hek
    · exact hnd.sublist (hsub.map Prod.snd)
    · exact fun e2 he2 => hltid e2 (hmemAB e2 he2)

theorem length_filter_partition [DecidableEq K] (els : List (K × Nat))
    (ks : List K) (hnd : ks.Nodup) (hcov : ∀ e ∈ els, e.1 ∈ ks) :
    els.length = (ks.map (fun k =>
      (els.filter (fun e => decide (e.1 = k))).length)).sum := by
  induction ks generalizing els with
  | nil =>
    cases els with
    | nil => rfl
    | cons e t => exact absurd (hcov e (List.mem_cons_self e t)) (by simp)
  | cons k ks ih =>
    rw [List.nodup_cons] at hnd
    rw [List.map_cons, List.sum_cons]
    have hsplit : els.length =
        (els.filter (fun e => decide (e.1 = k))).length +
        (els.filter (fun e => !decide (e.1 = k))).length :=
      List.length_eq_length_filter_add _
    rw [hsplit]
    congr 1
    have hcov2 : ∀ e ∈ els.filter (fun e => !decide (e.1 = k)), e.1 ∈ ks := by
      intro e he
      rw [List.mem_filter] at he
      rcases List.mem_cons.mp (hcov e he.1) with h | h
      · exfalso
        have := he.2
        simp only [Bool.not_eq_eq_eq_not, Bool.not_true, decide_eq_false_iff_not] at this
        exact this h
      · exact h
    rw [ih _ hnd.2 hcov2]
    apply congrArg List.sum
    apply List.map_congr_left
    intro k2 hk2
    have hkk2 : k ≠ k2 := fun hh => hnd.1 (hh ▸ hk2)
    rw [List.filter_filter]
    congr 1
    apply List.filter_congr
    intro e he
    by_cases hek : e.1 = k
    · simp [hek, hkk2]
    · simp [hek]

theorem specInv_of_inv [LinearOrder K] {d : stack_data K V} (hInv : Inv d) :
    SpecInv d := by
  have hcopy := hInv
  obtain ⟨hs1, hs2, hbk, hkl, hc1, hc2, hnd, hltid⟩ := hcopy
  refine ⟨?_, ?_, ?_, ⟨?_, ?_⟩,
    ⟨fun p hp => (hbk p hp).2, fun p hp => (hkl p hp).2⟩⟩
  · have hknd : (d.elements_by_key.map Prod.fst).Nodup :=
      nodup_keys_of_sorted hs1
    have hcov : ∀ e ∈ d.elements, e.1 ∈ d.elements_by_key.map Prod.fst := by
      intro e he
      obtain ⟨p, hp, hpk⟩ := hc1 e he
      rw [← hpk]
      exact List.mem_map_of_mem Prod.fst hp
    rw [length_filter_partition d.elements _ hknd hcov]
    rw [List.map_map]
    apply congrArg List.sum
    apply List.map_congr_left
    intro p hp
    show (d.elements.filter (fun e => decide (e.1 = p.1))).length = p.2.length
    have hlen := congrArg List.length (hbk p hp).1
    simp only [List.length_map, idsWithKey] at hlen
    exact hlen.symm
  · intro p hp
    have hne := (hbk p hp).2
    have hids : idsWithKey d.elements p.1 ≠ [] := by
      rw [← (hbk p hp).1]
      intro h0
      exact hne (List.map_eq_nil_iff.mp h0)
    refine ⟨idsWithKey d.elements p.1, hInv.ktl_find_of_has hids, ?_⟩
    rw [← (hbk p hp).1, List.length_map]
  · intro p hp
    have hne := (hkl p hp).2
    have hids : idsWithKey d.elements p.1 ≠ [] := by
      rw [← (hkl p hp).1]
      exact hne
    obtain ⟨b, hbf, hbids⟩ := hInv.ebk_find_of_has hids
    exact ⟨b, hbf, by rw [hbids, ← (hkl p hp).1], (hkl p hp).1⟩
  · intro e he
    have hids : idsWithKey d.elements e.1 ≠ [] := by
      intro h0
      have hmm := mem_idsWithKey he
      rw [h0] at hmm
      simp at hmm
    obtain ⟨b, hbf, hbids⟩ := hInv.ebk_find_of_has hids
    unfold valueOf
    rw [hbf]
    simp only [Option.getD_some]
    apply lookupId_isSome_of_mem
    rw [hbids]
    exact mem_idsWithKey he
  · intro p hp n hn
    rw [(hkl p hp).1] at hn
    exact (idsWithKey_sublist _ _).subset hn

theorem inv_runOp [LinearOrder K] {d : stack_data K V} (hInv : Inv d)
    (op : MutOp K V) (hOk : (runOp d op).1 = none) : Inv (runOp d op).2 := by
  cases op with
  | pushOp key value => exact inv_push hInv key value
  | popOp =>
    have hne : d.elements ≠ [] := by
      intro h0
      simp [runOp, stack_data.pop, h0] at hOk
    exact inv_pop hInv hne
  | popKeyOp key =>
    have hcnt : d.count key ≠ 0 := (popKey_none_iff d key).mp hOk
    exact inv_popKey hInv hcnt
  | clearOp => exact inv_clear d

theorem inv_runOps [LinearOrder K] {l : List (MutOp K V)}
    {d0 d : stack_data K V} (hInv : Inv d0) (h : runOps l d0 = some d) :
    Inv d := by
  induction l generalizing d0 with
  | nil =>
    simp only [runOps, Option.some.injEq] at h
    rw [← h]
    exact hInv
  | cons op t ih =>
    simp only [runOps] at h
    cases hop : runOp d0 op with
    | mk e d1 =>
      cases e with
      | none =>
        rw [hop] at h
        have hInv1 : Inv d1 := by
          have hh := inv_runOp hInv op (by rw [hop])
          rw [hop] at hh
          exact hh
        exact ih hInv1 h
      | some ex =>
        rw [hop] at h
        exact Option.noConfusion h

theorem pop_push [LinearOrder K] {d : stack_data K V} (hInv : Inv d)
    (key : K) (value : V) :
    (d.push key value).pop =
      (none, ⟨d.elements_by_key, d.elements, d.key_to_list_map,
        d.next_id + 1⟩) := by
  have hcopy := hInv
  obtain ⟨hs1, hs2, hbk, hkl, hc1, hc2, hnd, hltid⟩ := hcopy
  rw [push_eq]
  have hE : (⟨mapSet d.elements_by_key key
      ((mapFind? d.elements_by_key key).getD [] ++ [(d.next_id, value)]),
      d.elements ++ [(key, d.next_id)],
      mapSet d.key_to_list_map key
        ((mapFind? d.key_to_list_map key).getD [] ++ [d.next_id]),
      d.next_id + 1⟩ : stack_data K V).elements =
      d.elements ++ [(key, d.next_id)] := rfl
  rw [pop_eq hE]
  have hfindb : mapFind? (mapSet d.elements_by_key key
      ((mapFind? d.elements_by_key key).getD [] ++ [(d.next_id, value)]))
      key = some ((mapFind? d.elements_by_key key).getD [] ++
        [(d.next_id, value)]) := mapFind?_mapSet_self _ _ _
  have hfindl : mapFind? (mapSet d.key_to_list_map key
      ((mapFind? d.key_to_list_map key).getD [] ++ [d.next_id])) key =
      some ((mapFind? d.key_to_list_map key).getD [] ++ [d.next_id]) :=
    mapFind?_mapSet_self _ _ _
  have hens1 := mapEnsure_of_find hfindb ([] : List (Nat × V))
  have hens2 := mapEnsure_of_find hfindl ([] : List Nat)
  dsimp only
  rw [hens1, hens2, hfindb, hfindl]
  simp only [Option.getD_some, List.dropLast_concat]
  have hfreshb : ∀ q ∈ (mapFind? d.elements_by_key key).getD
      ([] : List (Nat × V)), q.1 ≠ d.next_id := by
    intro q hq he
    have hids := hInv.bucket_find key
    have : q.1 ∈ idsWithKey d.elements key := by
      rw [← hids]
      exact List.mem_map_of_mem Prod.fst hq
    have hlt := (idsWithKey_sublist d.elements key).subset this
    obtain ⟨e, hee, he2⟩ := List.mem_map.mp hlt
    have := hltid e hee
    rw [he2, he] at this
    exact lt_irrefl _ this
  rw [eraseId_concat_fresh value hfreshb]
  cases hfb : mapFind? d.elements_by_key key with
  | none =>
    cases hfl : mapFind? d.key_to_list_map key with
    | none =>
      simp only [Option.getD_none, List.isEmpty_nil, if_true]
      rw [mapErase_mapSet_of_none _ hfb, mapErase_mapSet_of_none _ hfl]
    | some l =>
      exfalso
      have hl := (hkl (key, l) (mapFind?_mem hfl)).1
      have hidnil := hInv.bucket_find key
      rw [hfb] at hidnil
      simp only [Option.getD_none, List.map_nil] at hidnil
      have hlnil : l = [] := by
        simpa [← hidnil] using hl
      exact (hkl (key, l) (mapFind?_mem hfl)).2 hlnil
  | some b =>
    have hbne : b ≠ [] := (hbk (key, b) (mapFind?_mem hfb)).2
    cases hfl : mapFind? d.key_to_list_map key with
    | none =>
      exfalso
      have hidnil := hInv.ktl_find key
      rw [hfl] at hidnil
      simp only [Option.getD_none] at hidnil
      have hbids := (hbk (key, b) (mapFind?_mem hfb)).1
      rw [← hidnil] at hbids
      exact hbne (List.map_eq_nil_iff.mp hbids)
    | some l =>
      have hlne : l ≠ [] := (hkl (key, l) (mapFind?_mem hfl)).2
      simp only [Option.getD_some]
      have hbne2 : b.isEmpty = false := by
        cases b with
        | nil => exact absurd rfl hbne
        | cons q t => rfl
      have hlne2 : l.isEmpty = false := by
        cases l with
        | nil => exact absurd rfl hlne
        | cons q t => rfl
      rw [hbne2, hlne2]
      simp only [if_false, Bool.false_eq_true]
      rw [mapSet_mapSet, mapSet_mapSet, mapSet_of_find hs1 hfb,
        mapSet_of_find hs2 hfl]

/-- C9 core: under the representation invariant, `push` then `pop` restores
every observable. -/
theorem push_pop_round_trip_of_inv [LinearOrder K] (d : stack_data K V)
    (key : K) (value : V) (hInv : Inv d) : pushPopRoundTrip d key value := by
  have h := pop_push hInv key value
  exact ⟨by rw [h], by rw [h]; rfl, by rw [h]; rfl, fun _ => by rw [h]; rfl⟩

/-! ### Failure-condition characterizations -/

theorem pop_err_iff [LinearOrder K] (d : stack_data K V) :
    d.pop.1 = some emptyErr ↔ d.size = 0 := by
  cases hE : d.elements with
  | nil =>
    simp [stack_data.pop, stack_data.size, hE]
  | cons q t =>
    rcases List.eq_nil_or_concat (q :: t) with h0 | ⟨E, e, hcc⟩
    · exact absurd h0 (by simp)
    · obtain ⟨key, vid⟩ := e
      have hE2 : d.elements = E ++ [(key, vid)] := by
        rw [hE, hcc, List.concat_eq_append]
      rw [pop_eq hE2]
      simp [stack_data.size, hE2]

theorem pop_none_iff [LinearOrder K] (d : stack_data K V) :
    d.pop.1 = none ↔ d.size ≠ 0 := by
  cases hE : d.elements with
  | nil =>
    simp [stack_data.pop, stack_data.size, hE]
  | cons q t =>
    rcases List.eq_nil_or_concat (q :: t) with h0 | ⟨E, e, hcc⟩
    · exact absurd h0 (by simp)
    · obtain ⟨key, vid⟩ := e
      have hE2 : d.elements = E ++ [(key, vid)] := by
        rw [hE, hcc, List.concat_eq_append]
      rw [pop_eq hE2]
      simp [stack_data.size, hE2]

theorem front_err_iff [DecidableEq K] (d : stack_data K V) :
    d.front.1 = some emptyErr ↔ d.size = 0 := by
  by_cases h : d.elements.length = 0
  · simp [stack_data.front, stack_data.size, h]
  · simp [stack_data.front, stack_data.size, h]

theorem front_none_iff [DecidableEq K] (d : stack_data K V) :
    d.front.1 = none ↔ d.size ≠ 0 := by
  by_cases h : d.elements.length = 0
  · simp [stack_data.front, stack_data.size, h]
  · simp [stack_data.front, stack_data.size, h]

theorem frontKey_err_iff [LinearOrder K] (d : stack_data K V) (key : K) :
    (d.frontKey key).1 = some noSuchKeyErr ↔ d.count key = 0 := by
  simp only [stack_data.frontKey, mapFind?_mapEnsure_self, Option.getD_some]
  cases hb : mapFind? d.elements_by_key key with
  | none => simp [stack_data.count, hb]
  | some b =>
    cases b with
    | nil => simp [stack_data.count, hb]
    | cons q t => simp [stack_data.count, hb]

theorem frontKey_none_iff [LinearOrder K] (d : stack_data K V) (key : K) :
    (d.frontKey key).1 = none ↔ d.count key ≠ 0 := by
  simp only [stack_data.frontKey, mapFind?_mapEnsure_self, Option.getD_some]
  cases hb : mapFind? d.elements_by_key key with
  | none => simp [stack_data.count, hb]
  | some b =>
    cases b with
    | nil => simp [stack_data.count, hb]
    | cons q t => simp [stack_data.count, hb]

theorem wFront_err_iff [LinearOrder K] {w : World K V} {i : Nat}
    (hi : i < w.handles.length) :
    (wFront w i).1 = some emptyErr ↔ (repOfHandle w i).size = 0 := by
  have hsome : w.handles[i]? = some w.handles[i] :=
    List.getElem?_eq_getElem hi
  have hrep : repOfHandle w i = repAt w (w.handles[i]).data_wrapper := by
    simp [repOfHandle, hsome]
  by_cases h : (repAt w (w.handles[i]).data_wrapper).elements.length = 0
  · simp [wFront, hrep, stack_data.size, h]
  · simp [wFront, hrep, stack_data.size, h]

theorem wFront_none_iff [LinearOrder K] {w : World K V} {i : Nat}
    (hi : i < w.handles.length) :
    (wFront w i).1 = none ↔ (repOfHandle w i).size ≠ 0 := by
  have hsome : w.handles[i]? = some w.handles[i] :=
    List.getElem?_eq_getElem hi
  have hrep : repOfHandle w i = repAt w (w.handles[i]).data_wrapper := by
    simp [repOfHandle, hsome]
  by_cases h : (repAt w (w.handles[i]).data_wrapper).elements.length = 0
  · simp [wFront, hrep, stack_data.size, h]
  · simp [wFront, hrep, stack_data.size, h]

theorem wFrontKey_err_iff [LinearOrder K] {w : World K V} {i : Nat}
    (hi : i < w.handles.length) (key : K) :
    (wFrontKey w i key).1 = some noSuchKeyErr ↔
      (repOfHandle w i).count key = 0 := by
  have hsome : w.handles[i]? = some w.handles[i] :=
    List.getElem?_eq_getElem hi
  have hrep : repOfHandle w i = repAt w (w.handles[i]).data_wrapper := by
    simp [repOfHandle, hsome]
  simp only [wFrontKey, hsome, mapFind?_mapEnsure_self, Option.getD_some,
    ← hrep]
  cases hb : mapFind? (repOfHandle w i).elements_by_key key with
  | none => simp [stack_data.count, hb]
  | some b =>
    cases b with
    | nil => simp [stack_data.count, hb]
    | cons q t => simp [stack_data.count, hb]

theorem wFrontKey_none_iff [LinearOrder K] {w : World K V} {i : Nat}
    (hi : i < w.handles.length) (key : K) :
    (wFrontKey w i key).1 = none ↔ (repOfHandle w i).count key ≠ 0 := by
  have hsome : w.handles[i]? = some w.handles[i] :=
    List.getElem?_eq_getElem hi
  have hrep : repOfHandle w i = repAt w (w.handles[i]).data_wrapper := by
    simp [repOfHandle, hsome]
  simp only [wFrontKey, hsome, mapFind?_mapEnsure_self, Option.getD_some,
    ← hrep]
  cases hb : mapFind? (repOfHandle w i).elements_by_key key with
  | none => simp [stack_data.count, hb]
  | some b =>
    cases b with
    | nil => simp [stack_data.count, hb]
    | cons q t => simp [stack_data.count, hb]

theorem pop_only_emptyErr [LinearOrder K] (d : stack_data K V) :
    d.pop.1 = none ∨ d.pop.1 = some emptyErr := by
  by_cases h : d.size = 0
  · exact Or.inr ((pop_err_iff d).mpr h)
  · exact Or.inl ((pop_none_iff d).mpr h)

theorem front_only_emptyErr [DecidableEq K] (d : stack_data K V) :
    d.front.1 = none ∨ d.front.1 = some emptyErr := by
  by_cases h : d.size = 0
  · exact Or.inr ((front_err_iff d).mpr h)
  · exact Or.inl ((front_none_iff d).mpr h)

theorem popKey_only_noSuchKeyErr [LinearOrder K] (d : stack_data K V)
    (key : K) :
    (d.popKey key).1 = none ∨ (d.popKey key).1 = some noSuchKeyErr := by
  by_cases h : d.count key = 0
  · exact Or.inr ((popKey_err_iff d key).mpr h)
  · exact Or.inl ((popKey_none_iff d key).mpr h)

theorem frontKey_only_noSuchKeyErr [LinearOrder K] (d : stack_data K V)
    (key : K) :
    (d.frontKey key).1 = none ∨ (d.frontKey key).1 = some noSuchKeyErr := by
  by_cases h : d.count key = 0
  · exact Or.inr ((frontKey_err_iff d key).mpr h)
  · exact Or.inl ((frontKey_none_iff d key).mpr h)

end cxx

/-! ## The claims -/

open cxx

/-- C1: refuted on the code — for the mutator `pop(k)` there is a state and
a failing call after which the key-iterator sequence differs from its
pre-call value.  On the stack holding the single entry `(0, 1)`, `pop(5)`
raises the no-such-key failure, yet the `operator[]` in its precondition
check inserts an empty bucket for key 5 into `elements_by_key`, so the key
iterator afterwards yields `[0, 5]` instead of the pre-call `[0]` (size and
count are unchanged). -/
theorem c1_popKey_failure_mutates_key_iterator :
    let d : cxx.stack_data Nat Nat := cxx.emptyData.push 0 1
    (d.popKey 5).1 = some cxx.noSuchKeyErr ∧
    d.keys = [0] ∧
    (d.popKey 5).2.keys = [0, 5] ∧
    (d.popKey 5).2.size = d.size ∧
    (∀ k < 6, (d.popKey 5).2.count k = d.count k) := by decide

/-- C2: starting from an empty stack, `push(a,1); push(b,2); push(a,3)`
(with `a = 0`, `b = 1`) yields size 3, count(a) = 2, count(b) = 1,
front() = (a, 3), front(a) = 3, front(b) = 2, and the key iterator yields
`[a, b]`. -/
theorem c2_push_sequence_scenario :
    let d : cxx.stack_data Nat Nat :=
      ((cxx.emptyData.push 0 1).push 1 2).push 0 3
    d.size = 3 ∧ d.count 0 = 2 ∧ d.count 1 = 1 ∧
    d.front = (none, some (0, 3)) ∧
    (d.frontKey 0).2.1 = some 3 ∧ (d.frontKey 1).2.1 = some 2 ∧
    d.keys = [0, 1] := by decide

/-- C3: refuted on the code — a handle and a copy constructed from it can
observe different key-iterator outputs although neither performed a
mutator.  Handle 0 pushes `(0,1)` and calls the non-const `front()`
(shareable becomes false), so `copyFrom` gives handle 1 a deep clone; the
two handles then reference distinct representations and observe equal
keys.  A failed const `front(1)` on handle 0 (key 1 absent, an observer
call, not a mutator) inserts an empty bucket into handle 0's
representation only: afterwards handle 0's key iterator yields `[0, 1]`
while handle 1's yields `[0]`. -/
theorem c3_copy_observation_divergence :
    let w0 : cxx.World Nat Nat := cxx.oneStackWorld
    let w1 := cxx.wPush w0 0 0 1
    let w2 := (cxx.wFront w1 0).2.2
    let w3 := cxx.copyFrom w2 0
    let w4 := (cxx.wFrontKeyConst w3 0 1).2.2
    cxx.idxOf w3 1 ≠ cxx.idxOf w3 0 ∧
    (cxx.repOfHandle w3 0).keys = (cxx.repOfHandle w3 1).keys ∧
    (cxx.wFrontKeyConst w3 0 1).1 = some cxx.noSuchKeyErr ∧
    (cxx.repOfHandle w4 0).keys = [0, 1] ∧
    (cxx.repOfHandle w4 1).keys = [0] := by decide

/-- C4: refuted on the code — the shareable flag does not stay false until
the handle is replaced.  After `push(0,1)` a successful non-const
`front()` sets handle 0's `bIsShareable` to false, but a subsequent
`push(1,2)` runs `modify_guard(*this, true)` which unconditionally writes
`bIsShareable = true` (stack.h:335); a copy constructed afterwards shares
the representation instead of deep-cloning. -/
theorem c4_stickiness_reset_by_push :
    let w0 : cxx.World Nat Nat := cxx.oneStackWorld
    let w1 := cxx.wPush w0 0 0 1
    let w2 := (cxx.wFront w1 0).2.2
    let w3 := cxx.wPush w2 0 1 2
    let w4 := cxx.copyFrom w3 0
    (cxx.wFront w1 0).1 = none ∧
    cxx.flagOf w2 0 = false ∧
    cxx.flagOf w3 0 = true ∧
    cxx.idxOf w4 1 = cxx.idxOf w4 0 := by decide

/-- C5: after every sequence of push / pop / pop(k) / clear operations that
all return successfully, starting from the empty representation, the five
data-model invariants of spec §3 hold: the entry count equals the sum of
bucket sizes, the per-key index buckets match the value buckets in length
and node ids (in push order, equal to the key's subsequence of the entry
order), every stored reference is live, and no empty bucket exists. -/
theorem c5_invariants_after_successful_ops {K V : Type} [LinearOrder K]
    (l : List (cxx.MutOp K V)) (d : cxx.stack_data K V)
    (h : cxx.runOps l cxx.emptyData = some d) : cxx.SpecInv d :=
  cxx.specInv_of_inv (cxx.inv_runOps cxx.inv_empty h)

/-- Witness for C5 at a concrete successful operation sequence. -/
theorem c5_invariants_after_successful_ops_witness :
    cxx.SpecInv ((cxx.runOps
      [cxx.MutOp.pushOp 0 1, cxx.MutOp.pushOp 1 2, cxx.MutOp.pushOp 0 3,
        cxx.MutOp.popKeyOp 0, cxx.MutOp.popOp]
      (cxx.emptyData : cxx.stack_data Nat Nat)).getD cxx.emptyData) :=
  c5_invariants_after_successful_ops
    [cxx.MutOp.pushOp 0 1, cxx.MutOp.pushOp 1 2, cxx.MutOp.pushOp 0 3,
      cxx.MutOp.popKeyOp 0, cxx.MutOp.popOp] _ (by rfl)

/-- C6: `pop()` and the `front()` variants raise the empty failure exactly
when the container is empty, `pop(k)` and the `front(k)` variants raise
the no-such-key failure exactly when `count k = 0`, and in the
complementary cases (no allocation failure being modelled) they succeed. -/
theorem c6_failure_conditions {K V : Type} [LinearOrder K]
    (d : cxx.stack_data K V) (key : K) (w : cxx.World K V) (i : Nat)
    (hi : i < w.handles.length) : cxx.failureConditions d key w i :=
  ⟨cxx.pop_err_iff d, cxx.pop_none_iff d, cxx.front_err_iff d,
   cxx.front_none_iff d, cxx.popKey_err_iff d key, cxx.popKey_none_iff d key,
   cxx.frontKey_err_iff d key, cxx.frontKey_none_iff d key,
   cxx.wFront_err_iff hi, cxx.wFront_none_iff hi,
   cxx.wFrontKey_err_iff hi key, cxx.wFrontKey_none_iff hi key⟩

/-- Witness for C6 at a concrete state, key and world. -/
theorem c6_failure_conditions_witness :
    cxx.failureConditions ((cxx.emptyData.push 0 1 : cxx.stack_data Nat Nat))
      5 cxx.oneStackWorld 0 :=
  c6_failure_conditions (cxx.emptyData.push 0 1) 5 cxx.oneStackWorld 0
    (by decide)

/-- C7: refuted on the code — move construction does not transfer the
shareable flag and assignment does not replace it.  After `push(0,1)` and
a non-const `front()`, handle 0's flag is false, yet a stack
move-constructed from it has `bIsShareable = true` (only `data_wrapper`
appears in the move constructor's initializer list, stack.h:224-227);
likewise assigning a shareable handle to handle 0 retargets its
representation but leaves its flag false because `operator=` never writes
`bIsShareable` (stack.h:544-559). -/
theorem c7_move_and_assign_do_not_transfer_flag :
    let w0 : cxx.World Nat Nat := cxx.oneStackWorld
    let w1 := cxx.wPush w0 0 0 1
    let w2 := (cxx.wFront w1 0).2.2
    let w3 := cxx.addFreshStack w2
    let w4 := cxx.assign w3 0 1
    cxx.flagOf w2 0 = false ∧
    (cxx.moveConstruct ⟨cxx.idxOf w2 0, cxx.flagOf w2 0⟩).bIsShareable
      = true ∧
    (cxx.moveConstruct ⟨cxx.idxOf w2 0, cxx.flagOf w2 0⟩).data_wrapper
      = cxx.idxOf w2 0 ∧
    cxx.flagOf w3 1 = true ∧
    cxx.idxOf w4 0 = cxx.idxOf w3 1 ∧
    cxx.flagOf w4 0 = false := by decide

/-- C8: refuted on the code — the const `front(k)` overload mutates on a
failing precondition.  On the stack holding the single entry `(0, 1)`,
const `front(5)` raises no-such-key, but its `operator[]` check inserts an
empty bucket for key 5, so the key-iterator sequence changes from `[0]` to
`[0, 5]` (size and count are unchanged). -/
theorem c8_const_frontKey_mutates_on_absent_key :
    let d : cxx.stack_data Nat Nat := cxx.emptyData.push 0 1
    (d.frontKey 5).1 = some cxx.noSuchKeyErr ∧
    d.keys = [0] ∧
    (d.frontKey 5).2.2.keys = [0, 5] ∧
    (d.frontKey 5).2.2.size = d.size ∧
    (∀ k < 6, (d.frontKey 5).2.2.count k = d.count k) := by decide

/-- C9: for every key, value, and representation satisfying the reachable-
state invariant, `push(key, value)` immediately followed by `pop()`
succeeds and restores `size()` and `count(key)` to their pre-push values,
and when the container was non-empty before the push, `front()` afterwards
returns the same (key, value) pair as before. -/
theorem c9_push_pop_round_trip {K V : Type} [LinearOrder K]
    (d : cxx.stack_data K V) (key : K) (value : V) (hInv : cxx.Inv d) :
    cxx.pushPopRoundTrip d key value :=
  cxx.push_pop_round_trip_of_inv d key value hInv

/-- Witness for C9 at a concrete non-empty stack. -/
theorem c9_push_pop_round_trip_witness :
    cxx.pushPopRoundTrip
      (((cxx.emptyData.push 0 1).push 1 2) : cxx.stack_data Nat Nat) 5 9 :=
  c9_push_pop_round_trip ((cxx.emptyData.push 0 1).push 1 2) 5 9 (by decide)

/-- C10: both logical failure kinds are raised as the same exception type
`std::invalid_argument` and differ only in their message strings; `pop()`
and `front()` raise only the empty-stack value, `pop(k)` and `front(k)`
only the no-such-key value. -/
theorem c10_single_exception_type {K V : Type} [LinearOrder K]
    (d : cxx.stack_data K V) (key : K) :
    cxx.emptyErr.typeName = "std::invalid_argument" ∧
    cxx.noSuchKeyErr.typeName = "std::invalid_argument" ∧
    cxx.emptyErr.message ≠ cxx.noSuchKeyErr.message ∧
    (d.pop.1 = none ∨ d.pop.1 = some cxx.emptyErr) ∧
    (d.front.1 = none ∨ d.front.1 = some cxx.emptyErr) ∧
    ((d.popKey key).1 = none ∨ (d.popKey key).1 = some cxx.noSuchKeyErr) ∧
    ((d.frontKey key).1 = none ∨
      (d.frontKey key).1 = some cxx.noSuchKeyErr) :=
  ⟨rfl, rfl, by decide, cxx.pop_only_emptyErr d, cxx.front_only_emptyErr d,
   cxx.popKey_only_noSuchKeyErr d key, cxx.frontKey_only_noSuchKeyErr d key⟩
